import Mathlib

/-!
# Verification of the dingtalk-webhook client library

A shallow embedding of `webhook.go`. Go strings are byte sequences, so the
signing and URL layers model them as `List Nat` (each element a byte);
the payload layer, whose strings are only ever concatenated and
pattern-matched rune-wise, models them as Lean `String` (Go `regexp`
matches over runes). `strBytes` (UTF-8 encoding) is the bridge.

The HTTP transport and the JSON decoder of the response body are the only
parts of the dispatch path that live outside the repository; they enter the
embedding as explicit function arguments (`post`, `decode`) of the dispatch
routine, and the current time enters as the `timestamp` argument.
-/

/-- A Go string: a sequence of bytes. -/
abbrev GoStr := List Nat

/-- UTF-8 encoding of a single code point, as Go produces for a rune. -/
def utf8Char (c : Nat) : GoStr :=
  if c < 128 then [c]
  else if c < 2048 then [192 + c / 64, 128 + c % 64]
  else if c < 65536 then [224 + c / 4096, 128 + (c / 64) % 64, 128 + c % 64]
  else [240 + c / 262144, 128 + (c / 4096) % 64, 128 + (c / 64) % 64, 128 + c % 64]

/-- The UTF-8 bytes of a Lean string, i.e. the bytes of the Go string literal. -/
def strBytes (s : String) : GoStr :=
  s.toList.foldr (fun c acc => utf8Char c.toNat ++ acc) []

/-! ## SHA-256 (FIPS 180-4), as used by `crypto/sha256` -/

/-- 32-bit truncating addition. -/
def add32 (a b : Nat) : Nat := (a + b) % 4294967296

/-- Right rotation of a 32-bit word. -/
def rotr32 (n x : Nat) : Nat := (x >>> n) ||| ((x <<< (32 - n)) % 4294967296)

/-- Bitwise complement of a 32-bit word. -/
def bnot32 (x : Nat) : Nat := 4294967295 - x

def sigmaSmall0 (x : Nat) : Nat := (rotr32 7 x) ^^^ (rotr32 18 x) ^^^ (x >>> 3)

def sigmaSmall1 (x : Nat) : Nat := (rotr32 17 x) ^^^ (rotr32 19 x) ^^^ (x >>> 10)

def sigmaBig0 (x : Nat) : Nat := (rotr32 2 x) ^^^ (rotr32 13 x) ^^^ (rotr32 22 x)

def sigmaBig1 (x : Nat) : Nat := (rotr32 6 x) ^^^ (rotr32 11 x) ^^^ (rotr32 25 x)

def chFn (x y z : Nat) : Nat := (x &&& y) ^^^ (bnot32 x &&& z)

def majFn (x y z : Nat) : Nat := (x &&& y) ^^^ (x &&& z) ^^^ (y &&& z)

/-- The SHA-256 round constants. -/
def shaK : List Nat :=
  [1116352408, 1899447441, 3049323471, 3921009573, 961987163, 1508970993,
   2453635748, 2870763221, 3624381080, 310598401, 607225278, 1426881987,
   1925078388, 2162078206, 2614888103, 3248222580, 3835390401, 4022224774,
   264347078, 604807628, 770255983, 1249150122, 1555081692, 1996064986,
   2554220882, 2821834349, 2952996808, 3210313671, 3336571891, 3584528711,
   113926993, 338241895, 666307205, 773529912, 1294757372, 1396182291,
   1695183700, 1986661051, 2177026350, 2456956037, 2730485921, 2820302411,
   3259730800, 3345764771, 3516065817, 3600352804, 4094571909, 275423344,
   430227734, 506948616, 659060556, 883997877, 958139571, 1322822218,
   1537002063, 1747873779, 1955562222, 2024104815, 2227730452, 2361852424,
   2428436474, 2756734187, 3204031479, 3329325298]

/-- The SHA-256 working state: eight 32-bit words. -/
structure ShaState where
  a : Nat
  b : Nat
  c : Nat
  d : Nat
  e : Nat
  f : Nat
  g : Nat
  h : Nat

/-- Initial SHA-256 hash value. -/
def shaInit : ShaState :=
  ⟨1779033703, 3144134277, 1013904242, 2773480762,
   1359893119, 2600822924, 528734635, 1541459225⟩

/-- `n` bytes of `v`, big-endian. -/
def natToBytesBE : Nat → Nat → GoStr
  | 0, _ => []
  | n + 1, v => natToBytesBE n (v / 256) ++ [v % 256]

/-- Big-endian 32-bit words of a block of bytes. -/
def wordsOfBytes : GoStr → List Nat
  | b0 :: b1 :: b2 :: b3 :: rest =>
      (b0 * 16777216 + b1 * 65536 + b2 * 256 + b3) :: wordsOfBytes rest
  | _ => []

/-- Extend the 16 block words to the 64-word message schedule.
`w` holds the words produced so far, most recent first. -/
def shaSchedule : Nat → List Nat → List Nat
  | 0, w => w
  | fuel + 1, w =>
      let nw := add32 (add32 (sigmaSmall1 (w.getD 1 0)) (w.getD 6 0))
                      (add32 (sigmaSmall0 (w.getD 14 0)) (w.getD 15 0))
      shaSchedule fuel (nw :: w)

/-- One round of the SHA-256 compression function. -/
def shaRound (s : ShaState) (kw : Nat × Nat) : ShaState :=
  let t1 := add32 (add32 (add32 s.h (sigmaBig1 s.e)) (add32 (chFn s.e s.f s.g) kw.1)) kw.2
  let t2 := add32 (sigmaBig0 s.a) (majFn s.a s.b s.c)
  ⟨add32 t1 t2, s.a, s.b, s.c, add32 s.d t1, s.e, s.f, s.g⟩

/-- Process one 64-byte block. -/
def shaBlock (s : ShaState) (block : GoStr) : ShaState :=
  let w := (shaSchedule 48 (wordsOfBytes block).reverse).reverse
  let t := (shaK.zip w).foldl shaRound s
  ⟨add32 s.a t.a, add32 s.b t.b, add32 s.c t.c, add32 s.d t.d,
   add32 s.e t.e, add32 s.f t.f, add32 s.g t.g, add32 s.h t.h⟩

/-- Split a byte list into 64-byte chunks; `fuel` bounds the recursion. -/
def chunks64 : Nat → GoStr → List GoStr
  | 0, _ => []
  | _ + 1, [] => []
  | fuel + 1, bytes => bytes.take 64 :: chunks64 fuel (bytes.drop 64)

/-- SHA-256 digest (32 bytes) of a byte string. -/
def sha256 (msg : GoStr) : GoStr :=
  let padLen := (64 - (msg.length + 9) % 64) % 64
  let padded := msg ++ 128 :: List.replicate padLen 0 ++ natToBytesBE 8 (8 * msg.length)
  let s := (chunks64 padded.length padded).foldl shaBlock shaInit
  natToBytesBE 4 s.a ++ natToBytesBE 4 s.b ++ natToBytesBE 4 s.c ++ natToBytesBE 4 s.d ++
  natToBytesBE 4 s.e ++ natToBytesBE 4 s.f ++ natToBytesBE 4 s.g ++ natToBytesBE 4 s.h

/-! ## HMAC-SHA256 (`crypto/hmac`) and standard Base64 (`encoding/base64`) -/

/-- HMAC-SHA256 of `msg` under `key` (block size 64). -/
def hmacSha256 (key msg : GoStr) : GoStr :=
  let k0 := if 64 < key.length then sha256 key else key
  let kp := k0 ++ List.replicate (64 - k0.length) 0
  let ipadded := kp.map (fun b => b ^^^ 54)
  let opadded := kp.map (fun b => b ^^^ 92)
  sha256 (opadded ++ sha256 (ipadded ++ msg))

/-- Byte of the standard Base64 alphabet at index `i < 64`. -/
def b64Byte (i : Nat) : Nat :=
  if i < 26 then 65 + i
  else if i < 52 then 97 + (i - 26)
  else if i < 62 then 48 + (i - 52)
  else if i = 62 then 43 else 47

/-- `base64.StdEncoding.EncodeToString`: standard alphabet, `=` padding. -/
def base64Std : GoStr → GoStr
  | [] => []
  | [a] => [b64Byte (a / 4), b64Byte (a % 4 * 16), 61, 61]
  | [a, b] => [b64Byte (a / 4), b64Byte (a % 4 * 16 + b / 16), b64Byte (b % 16 * 4), 61]
  | a :: b :: c :: rest =>
      b64Byte (a / 4) :: b64Byte (a % 4 * 16 + b / 16) ::
      b64Byte (b % 16 * 4 + c / 64) :: b64Byte (c % 64) :: base64Std rest

/-! ## The client and its signing routine (`webhook.go`) -/

/-- `WebHook`: the client configuration (`webhook.go` lines 68-72). -/
structure WebHook where
  AccessToken : GoStr
  APIURL : GoStr
  Secret : GoStr

/-- `getSign` (`webhook.go` lines 274-282), with the wall-clock millisecond
timestamp string supplied as the argument `timestamp`: returns the timestamp
and the Base64 of HMAC-SHA256 over `timestamp + "\n" + secret` keyed by the
secret. -/
def getSign (secret timestamp : GoStr) : GoStr × GoStr :=
  let message := timestamp ++ 10 :: secret
  (timestamp, base64Std (hmacSha256 secret message))

/-! ## Query escaping and parsing (`net/url`)

`url.QueryEscape` / `url.QueryUnescape` / `url.ParseQuery` / `url.Values`
modelled at the byte level, exactly as Go operates on them. -/

/-- Bytes `url.QueryEscape` leaves unescaped: ASCII alphanumerics and
`-`, `_`, `.`, `~`. -/
def isUnreservedByte (b : Nat) : Bool :=
  decide (65 ≤ b ∧ b ≤ 90) || decide (97 ≤ b ∧ b ≤ 122) ||
  decide (48 ≤ b ∧ b ≤ 57) || decide (b = 45) || decide (b = 95) ||
  decide (b = 46) || decide (b = 126)

/-- Upper-case hexadecimal digit byte for `n < 16`. -/
def hexUpperDigit (n : Nat) : Nat := if n < 10 then 48 + n else 55 + n

/-- `url.QueryEscape`: keep unreserved bytes, encode space as `+`, and
percent-encode every other byte with upper-case hex. -/
def queryEscape : GoStr → GoStr
  | [] => []
  | b :: rest =>
      if isUnreservedByte b then b :: queryEscape rest
      else if b = 32 then 43 :: queryEscape rest
      else 37 :: hexUpperDigit (b / 16) :: hexUpperDigit (b % 16) :: queryEscape rest

/-- Value of one hexadecimal digit byte. -/
def hexVal (b : Nat) : Option Nat :=
  if 48 ≤ b ∧ b ≤ 57 then some (b - 48)
  else if 65 ≤ b ∧ b ≤ 70 then some (b - 55)
  else if 97 ≤ b ∧ b ≤ 102 then some (b - 87)
  else none

/-- `url.QueryUnescape`: `%XX` decodes a byte, `+` decodes to space, a
malformed `%` sequence is an error (`none`). -/
def queryUnescape : GoStr → Option GoStr
  | [] => some []
  | b :: rest =>
      if b = 37 then
        match rest with
        | h1 :: h2 :: rest2 =>
            match hexVal h1, hexVal h2, queryUnescape rest2 with
            | some v1, some v2, some r => some ((v1 * 16 + v2) :: r)
            | _, _, _ => none
        | _ => none
      else if b = 43 then (queryUnescape rest).map (fun r => 32 :: r)
      else (queryUnescape rest).map (fun r => b :: r)

/-- `strings.Cut` at the first occurrence of byte `sep`: the part before it
and, when found, the part after it. -/
def cutByte (sep : Nat) : GoStr → GoStr × Option GoStr
  | [] => ([], none)
  | b :: rest =>
      if b = sep then ([], some rest)
      else
        let (pre, post) := cutByte sep rest
        (b :: pre, post)

/-- The `&`-separated segments `url.ParseQuery`'s loop visits, in order.
`fuel` bounds the recursion; `segmentsOf s.length s` is the intended call. -/
def segmentsOf : Nat → GoStr → List GoStr
  | _, [] => []
  | 0, _ :: _ => []
  | fuel + 1, b :: rest =>
      match cutByte 38 (b :: rest) with
      | (seg, none) => [seg]
      | (seg, some more) => seg :: segmentsOf fuel more

/-- `url.Values`: keys with their value lists. Go's map is unordered; this
list keeps entries in first-insertion order, which is immaterial to every
observation below because `Encode` sorts keys and lookups are by key. -/
abbrev Values := List (GoStr × List GoStr)

/-- The value list of a key (`v[key]`), `[]` when absent. -/
def lookupVals : Values → GoStr → List GoStr
  | [], _ => []
  | (k, vs) :: rest, key => if k = key then vs else lookupVals rest key

/-- `m[key] = append(m[key], value)`. -/
def appendVal : Values → GoStr → GoStr → Values
  | [], k, v => [(k, [v])]
  | (k', vs) :: rest, k, v =>
      if k' = k then (k', vs ++ [v]) :: rest else (k', vs) :: appendVal rest k v

/-- `v.Set(key, value)`: replace the key's values with the single value. -/
def setParam : Values → GoStr → GoStr → Values
  | [], k, v => [(k, [v])]
  | (k', vs) :: rest, k, v =>
      if k' = k then (k', [v]) :: rest else (k', vs) :: setParam rest k v

/-- One iteration of `url.ParseQuery`'s loop on a segment: skip a segment
containing `;`, an empty segment, or a segment whose key or value fails to
unescape; otherwise cut at the first `=` and append the decoded pair. -/
def upsertSeg (m : Values) (seg : GoStr) : Values :=
  if 59 ∈ seg then m
  else if seg = [] then m
  else
    let cut := cutByte 61 seg
    let rawV := match cut.2 with | some v => v | none => []
    match queryUnescape cut.1, queryUnescape rawV with
    | some k, some v => appendVal m k v
    | _, _ => m

/-- `url.ParseQuery`, keeping the successfully parsed pairs (the call site
`q, _ := url.ParseQuery(u.RawQuery)` discards the error). -/
def parseQuery (s : GoStr) : Values :=
  (segmentsOf s.length s).foldl upsertSeg []

/-- Byte-wise lexicographic order on byte strings (Go string `<=`). -/
def bytesLE : GoStr → GoStr → Bool
  | x :: xs, y :: ys =>
      if x < y then true
      else if y < x then false
      else bytesLE xs ys
  | xs, _ => xs.isEmpty

/-- Insert an entry into a key-sorted list of entries. -/
def insertSorted (e : GoStr × List GoStr) : Values → Values
  | [] => [e]
  | f :: rest => if bytesLE e.1 f.1 then e :: f :: rest else f :: insertSorted e rest

/-- Sort entries by key (`sort.Strings(keys)` in `Values.Encode`). -/
def sortVals : Values → Values
  | [] => []
  | e :: rest => insertSorted e (sortVals rest)

/-- Join segments with `&`. -/
def joinAmp : List GoStr → GoStr
  | [] => []
  | [s] => s
  | s :: rest => s ++ 38 :: joinAmp rest

/-- `v.Encode()`: keys in sorted order, each value as
`QueryEscape(key)=QueryEscape(value)`, pairs joined by `&`. -/
def encodeValues (m : Values) : GoStr :=
  joinAmp ((sortVals m).foldr
    (fun e acc => e.2.map (fun v => queryEscape e.1 ++ 61 :: queryEscape v) ++ acc) [])

/-- `addParamsToURL` (`webhook.go` lines 285-295): parse the URL's query,
`Set` each parameter, re-encode, and rebuild the URL. The non-query part of
the URL is modelled as passing through `url.Parse`/`URL.String` verbatim
(true of every URL this client builds; `net/url` additionally normalises
exotic escapes in the path, which nothing here exercises). Go iterates the
parameter map in unspecified order; since `Encode` sorts keys and the keys
set are distinct, the list order here is immaterial. -/
def addParamsToURL (params : List (GoStr × GoStr)) (originURL : GoStr) : GoStr :=
  let cutF := cutByte 35 originURL
  let cutQ := cutByte 63 cutF.1
  let rawQ := match cutQ.2 with | some q => q | none => []
  let q := params.foldl (fun m kv => setParam m kv.1 kv.2) (parseQuery rawQ)
  let enc := encodeValues q
  cutQ.1 ++ (if enc = [] then [] else 63 :: enc) ++
    (match cutF.2 with | some f => 35 :: f | none => [])

/-- The raw query of a URL: after the first `?` of the pre-fragment part. -/
def rawQueryOf (url : GoStr) : GoStr :=
  match (cutByte 63 (cutByte 35 url).1).2 with
  | some q => q
  | none => []

/-- Is `pre` a prefix of `s`? -/
def goHasPrefixB : GoStr → GoStr → Bool
  | _, [] => true
  | [], _ :: _ => false
  | a :: as, b :: bs => (a == b) && goHasPrefixB as bs

/-- `strings.Contains s sub`. -/
def goContains : GoStr → GoStr → Bool
  | [], sub => goHasPrefixB [] sub
  | b :: rest, sub => goHasPrefixB (b :: rest) sub || goContains rest sub

/-! ## URL resolution of the dispatch routine (`webhook.go` lines 95-111) -/

/-- The query parameters `sendPayload` collects before posting: the access
token (unless the token already contains the API URL), and, when a secret is
configured, the timestamp and signature from `getSign`. -/
def dispatchParams (w : WebHook) (timestamp : GoStr) : List (GoStr × GoStr) :=
  (if goContains w.AccessToken w.APIURL then []
   else [(strBytes "access_token", w.AccessToken)]) ++
  (if w.Secret = [] then []
   else [(strBytes "timestamp", (getSign w.Secret timestamp).1),
         (strBytes "sign", (getSign w.Secret timestamp).2)])

/-- The base URL `sendPayload` starts from: the access token itself when it
contains the API URL, the API URL otherwise. -/
def dispatchBaseURL (w : WebHook) : GoStr :=
  if goContains w.AccessToken w.APIURL then w.AccessToken else w.APIURL

/-- The URL `sendPayload` posts to: the base URL, with the collected
parameters merged in when there are any. -/
def dispatchURL (w : WebHook) (timestamp : GoStr) : GoStr :=
  if dispatchParams w timestamp = [] then dispatchBaseURL w
  else addParamsToURL (dispatchParams w timestamp) (dispatchBaseURL w)

/-! ## Payloads, responses and errors -/

/-- `LinkMsg` (`webhook.go` lines 21-25). -/
structure LinkMsg where
  Title : String := ""
  MessageURL : String := ""
  PicURL : String := ""
deriving DecidableEq

/-- A button of an action card (`webhook.go` lines 35-38). -/
structure ActionCardBtn where
  Title : String := ""
  ActionURL : String := ""
deriving DecidableEq

/-- `ActionCard` (`webhook.go` lines 28-39). -/
structure ActionCard where
  Text : String := ""
  Title : String := ""
  SingleTitle : String := ""
  SingleURL : String := ""
  BtnOrientation : String := ""
  HideAvatar : String := ""
  Buttons : List ActionCardBtn := []
deriving DecidableEq

/-- The `text` substructure of `PayLoad`. -/
structure TextField where
  Content : String := ""
deriving DecidableEq

/-- The `link` substructure of `PayLoad`. -/
structure LinkField where
  Title : String := ""
  Text : String := ""
  PicURL : String := ""
  MessageURL : String := ""
deriving DecidableEq

/-- The `markdown` substructure of `PayLoad`. -/
structure MarkdownField where
  Title : String := ""
  Text : String := ""
deriving DecidableEq

/-- The `feedCard` substructure of `PayLoad`. -/
structure FeedCardField where
  Links : List LinkMsg := []
deriving DecidableEq

/-- The `at` substructure of `PayLoad`. -/
structure AtField where
  AtMobiles : List String := []
  IsAtAll : Bool := false
deriving DecidableEq

/-- `PayLoad` (`webhook.go` lines 42-65); unset fields keep Go zero values. -/
structure PayLoad where
  MsgType : String := ""
  Text : TextField := {}
  Link : LinkField := {}
  Markdown : MarkdownField := {}
  ActionCard : ActionCard := {}
  FeedCard : FeedCardField := {}
  At : AtField := {}
deriving DecidableEq

/-- `Response` (`webhook.go` lines 75-78), decoded from the reply body. -/
structure Response where
  ErrorCode : Int := 0
  ErrorMessage : GoStr := []
deriving DecidableEq

/-- Outcome of the `http.Post` call: the network error, or a status code
with the bytes `ioutil.ReadAll` reads from the body. -/
inductive PostResult where
  | failure (cause : GoStr)
  | success (status : Int) (body : GoStr)
deriving DecidableEq

/-- The two distinct validation errors of `SendActionCardMsg`:
`empty` is `"links or titles is empty！"` (line 217) and `lengthMismatch`
is `"links length and titles length is not equal！"` (line 221). -/
inductive ValidationKind where
  | empty
  | lengthMismatch
deriving DecidableEq

/-- The distinguishable error values the library returns, one constructor
per `return errors.New/fmt.Errorf` site, carrying the data interpolated into
the Go error string. -/
inductive DTError where
  | transportError (cause : GoStr)
  | httpStatusError (status : Int)
  | malformedResponseError (cause : GoStr)
  | remoteAPIError (code : Int) (msg : GoStr)
  | validationError (kind : ValidationKind)
deriving DecidableEq

/-- The default API base URL (`webhook.go` line 82). -/
def baseAPIURL : GoStr := strBytes "https://oapi.dingtalk.com/robot/send"

/-- `NewWebHook` (`webhook.go` lines 81-84); the secret's zero value is
the empty string. -/
def NewWebHook (accessToken : GoStr) : WebHook :=
  ⟨accessToken, baseAPIURL, []⟩

/-! ## The dispatch routine (`sendPayload`, `webhook.go` lines 95-141)

`post url payload` stands for `http.Post` of the JSON-serialised payload,
`decode body` for `json.Unmarshal(body, &result)`, and `timestamp` for the
millisecond clock reading inside `getSign`. -/

/-- `sendPayload`: resolve the URL (lines 96-111), post, and interpret:
a failed post is a transport error; then a non-200 status is a status
error; then an undecodable body is a malformed-response error; then a
non-zero `errcode` is a remote API error; otherwise success. -/
def sendPayload (w : WebHook) (timestamp : GoStr)
    (post : GoStr → PayLoad → PostResult)
    (decode : GoStr → Except GoStr Response)
    (payload : PayLoad) : Except DTError Unit :=
  match post (dispatchURL w timestamp) payload with
  | .failure cause => .error (.transportError cause)
  | .success status body =>
      if status ≠ 200 then .error (.httpStatusError status)
      else
        match decode body with
        | .error cause => .error (.malformedResponseError cause)
        | .ok result =>
            if result.ErrorCode ≠ 0 then
              .error (.remoteAPIError result.ErrorCode result.ErrorMessage)
            else .ok ()

/-- `sendPayload` in state-passing form: the method's receiver `w` after the
call, paired with the returned error. The Go method never assigns to the
receiver's fields, so the translation returns `w` itself. -/
def sendPayloadS (w : WebHook) (timestamp : GoStr)
    (post : GoStr → PayLoad → PostResult)
    (decode : GoStr → Except GoStr Response)
    (payload : PayLoad) : WebHook × Except DTError Unit :=
  (w, sendPayload w timestamp post decode payload)

/-! ## Message builders (`webhook.go` lines 144-271) -/

/-- `SendTextMsg` (lines 144-161). -/
def SendTextMsg (w : WebHook) (timestamp : GoStr)
    (post : GoStr → PayLoad → PostResult)
    (decode : GoStr → Except GoStr Response)
    (content : String) (isAtAll : Bool) (mobiles : List String) :
    WebHook × Except DTError Unit :=
  sendPayloadS w timestamp post decode
    { MsgType := "text"
      Text := { Content := content }
      At := { AtMobiles := mobiles, IsAtAll := isAtAll } }

/-- `SendLinkMsg` (lines 164-179). -/
def SendLinkMsg (w : WebHook) (timestamp : GoStr)
    (post : GoStr → PayLoad → PostResult)
    (decode : GoStr → Except GoStr Response)
    (title content picURL msgURL : String) :
    WebHook × Except DTError Unit :=
  sendPayloadS w timestamp post decode
    { MsgType := "link"
      Link := { Title := title, Text := content, PicURL := picURL, MessageURL := msgURL } }

/-! ## The mobile-number pattern (`webhook.go` lines 91-92)

`regexp.MustCompile("^1([38][0-9]|14[57]|5[^4])\\d{8}$")`, matched over the
runes of the candidate string. The matcher below follows the regex
literally: after the leading `1`, the alternatives are `[38][0-9]`,
`14[57]` (three further runes), and `5[^4]`, each followed by exactly
eight digits and the end of the string. -/

/-- `\d`: an ASCII digit. -/
def isDigitChar (c : Char) : Bool := decide (48 ≤ c.toNat ∧ c.toNat ≤ 57)

/-- Exactly eight digits up to the end of the string (`\d{8}$`). -/
def digits8 (s : List Char) : Bool := s.length == 8 && s.all isDigitChar

/-- The group `([38][0-9]|14[57]|5[^4])` followed by `\d{8}$`. -/
def matchGroupTail : List Char → Bool
  | c2 :: c3 :: rest =>
      if (c2 == '3' || c2 == '8') && isDigitChar c3 then digits8 rest
      else if c2 == '1' && c3 == '4' then
        match rest with
        | c4 :: rest2 => (c4 == '5' || c4 == '7') && digits8 rest2
        | [] => false
      else if c2 == '5' && c3 != '4' then digits8 rest
      else false
  | _ => false

/-- `regPattern.MatchString`: the anchored pattern against the whole string —
a leading `1` followed by the group and eight digits. -/
def matchMobile : List Char → Bool
  | c1 :: rest => c1 == '1' && matchGroupTail rest
  | [] => false

/-- The pattern on a payload-layer string. -/
def matchMobileStr (s : String) : Bool := matchMobile s.toList

/-- One iteration of `SendMarkdownMsg`'s loop (lines 184-192): state is the
accumulated content and the `firstLine` flag. -/
def markdownStep (acc : String × Bool) (mobile : String) : String × Bool :=
  if matchMobileStr mobile then
    ((if acc.2 then acc.1 else acc.1 ++ "#####") ++ " @" ++ mobile, true)
  else acc

/-- The markdown content after `SendMarkdownMsg`'s mention-appending loop. -/
def markdownContent (content : String) (mobiles : List String) : String :=
  (mobiles.foldl markdownStep (content, false)).1

/-- The payload `SendMarkdownMsg` dispatches (lines 194-210): the transformed
content, and the full mobile list in the at-block. -/
def markdownPayload (title content : String) (isAtAll : Bool) (mobiles : List String) : PayLoad :=
  { MsgType := "markdown"
    Markdown := { Title := title, Text := markdownContent content mobiles }
    At := { AtMobiles := mobiles, IsAtAll := isAtAll } }

/-- `SendMarkdownMsg` (lines 182-211). -/
def SendMarkdownMsg (w : WebHook) (timestamp : GoStr)
    (post : GoStr → PayLoad → PostResult)
    (decode : GoStr → Except GoStr Response)
    (title content : String) (isAtAll : Bool) (mobiles : List String) :
    WebHook × Except DTError Unit :=
  sendPayloadS w timestamp post decode (markdownPayload title content isAtAll mobiles)

/-- `SendActionCardMsg` (lines 214-259): the emptiness check precedes the
length-equality check; both precede the call to `sendPayload`. -/
def SendActionCardMsg (w : WebHook) (timestamp : GoStr)
    (post : GoStr → PayLoad → PostResult)
    (decode : GoStr → Except GoStr Response)
    (title content : String) (linkTitles linkUrls : List String)
    (hideAvatar btnOrientation : Bool) :
    WebHook × Except DTError Unit :=
  if linkTitles.length = 0 ∨ linkUrls.length = 0 then
    (w, .error (.validationError .empty))
  else if linkUrls.length ≠ linkTitles.length then
    (w, .error (.validationError .lengthMismatch))
  else
    sendPayloadS w timestamp post decode
      { MsgType := "actionCard"
        ActionCard :=
          { Title := title
            Text := content
            HideAvatar := if hideAvatar then "1" else "0"
            BtnOrientation := if btnOrientation then "1" else "0"
            Buttons := (linkTitles.zip linkUrls).map (fun p => ⟨p.1, p.2⟩) } }

/-- `SendLinkCardMsg` (lines 262-271). -/
def SendLinkCardMsg (w : WebHook) (timestamp : GoStr)
    (post : GoStr → PayLoad → PostResult)
    (decode : GoStr → Except GoStr Response)
    (messages : List LinkMsg) :
    WebHook × Except DTError Unit :=
  sendPayloadS w timestamp post decode
    { MsgType := "feedCard"
      FeedCard := { Links := messages } }

/-! ## Theorems -/

/-- The signature as the spec words it: base64 standard encoding of the
HMAC-SHA256 digest of `timestamp + "\n" + secret`, keyed by the secret. -/
def specSignature (secret timestamp : GoStr) : GoStr :=
  base64Std (hmacSha256 secret (timestamp ++ (strBytes "\n" ++ secret)))

set_option maxRecDepth 100000 in
/-- C2: for every secret and timestamp, the signature `getSign` produces is
the base64 standard encoding of the HMAC-SHA256 digest of
`timestamp + "\n" + secret` keyed by the secret; at the fixed secret
`"testsecret"` and fixed timestamp `"1577262236757"` it equals the
independently computed reference value
`"J+BiSbR3jshnMXl7lBt86VHVkxu/BShC2VzSWYBVCKE="`. -/
theorem getSign_spec_and_reference :
    (∀ secret timestamp : GoStr, (getSign secret timestamp).2 = specSignature secret timestamp) ∧
    (getSign (strBytes "testsecret") (strBytes "1577262236757")).2
      = strBytes "J+BiSbR3jshnMXl7lBt86VHVkxu/BShC2VzSWYBVCKE=" :=
  ⟨fun _ _ => rfl, by decide⟩

/-- C10: dispatch and every message builder return the receiver unchanged:
no send operation mutates `AccessToken`, `APIURL` or `Secret`, whatever the
transport and decoder do. -/
theorem senders_preserve_config (w : WebHook) (timestamp : GoStr)
    (post : GoStr → PayLoad → PostResult) (decode : GoStr → Except GoStr Response) :
    (∀ payload, (sendPayloadS w timestamp post decode payload).1 = w) ∧
    (∀ content isAtAll mobiles,
       (SendTextMsg w timestamp post decode content isAtAll mobiles).1 = w) ∧
    (∀ title content picURL msgURL,
       (SendLinkMsg w timestamp post decode title content picURL msgURL).1 = w) ∧
    (∀ title content isAtAll mobiles,
       (SendMarkdownMsg w timestamp post decode title content isAtAll mobiles).1 = w) ∧
    (∀ title content linkTitles linkUrls hideAvatar btnOrientation,
       (SendActionCardMsg w timestamp post decode title content linkTitles linkUrls
          hideAvatar btnOrientation).1 = w) ∧
    (∀ messages, (SendLinkCardMsg w timestamp post decode messages).1 = w) := by
  refine ⟨fun _ => rfl, fun _ _ _ => rfl, fun _ _ _ _ => rfl, fun _ _ _ _ => rfl, ?_, fun _ => rfl⟩
  intro t c lt lu ha bo
  unfold SendActionCardMsg
  split
  · rfl
  · split
    · rfl
    · rfl

/-- C1: `sendPayload` interprets the outcome in order: a failed POST is a
transport error with the underlying cause; a non-200 status is a status
error with that code, independent of the body decoder; a body the decoder
rejects is a malformed-response error; a decoded non-zero `errcode` is a
remote API error with that code and message; and the call succeeds exactly
when the POST returns status 200 with a body decoding to `errcode = 0`. -/
theorem sendPayload_interpretation (w : WebHook) (timestamp : GoStr)
    (post : GoStr → PayLoad → PostResult) (decode : GoStr → Except GoStr Response)
    (payload : PayLoad) :
    (sendPayload w timestamp post decode payload = .ok () ↔
      ∃ body r, post (dispatchURL w timestamp) payload = .success 200 body ∧
        decode body = .ok r ∧ r.ErrorCode = 0) ∧
    (∀ cause, post (dispatchURL w timestamp) payload = .failure cause →
      sendPayload w timestamp post decode payload = .error (.transportError cause)) ∧
    (∀ status body, post (dispatchURL w timestamp) payload = .success status body →
      status ≠ 200 →
      ∀ decode' : GoStr → Except GoStr Response,
        sendPayload w timestamp post decode' payload = .error (.httpStatusError status)) ∧
    (∀ body cause, post (dispatchURL w timestamp) payload = .success 200 body →
      decode body = .error cause →
      sendPayload w timestamp post decode payload = .error (.malformedResponseError cause)) ∧
    (∀ body r, post (dispatchURL w timestamp) payload = .success 200 body →
      decode body = .ok r → r.ErrorCode ≠ 0 →
      sendPayload w timestamp post decode payload
        = .error (.remoteAPIError r.ErrorCode r.ErrorMessage)) := by
  refine ⟨⟨?_, ?_⟩, ?_, ?_, ?_, ?_⟩
  · intro h
    unfold sendPayload at h
    rcases hp : post (dispatchURL w timestamp) payload with c | ⟨st, body⟩ <;> rw [hp] at h
    · simp at h
    · by_cases hst : st ≠ 200
      · simp [hst] at h
      · push_neg at hst
        subst hst
        simp only [ne_eq, not_true_eq_false, if_false, reduceIte] at h
        rcases hd : decode body with c | r <;> rw [hd] at h
        · simp at h
        · by_cases he : r.ErrorCode ≠ 0
          · simp [he] at h
          · push_neg at he
            refine ⟨body, r, ?_, hd, he⟩
            simp [hp]
  · rintro ⟨body, r, hp, hd, he⟩
    simp [sendPayload, hp, hd, he]
  · intro cause hp
    simp [sendPayload, hp]
  · intro status body hp hst decode'
    simp [sendPayload, hp, hst]
  · intro body cause hp hd
    simp [sendPayload, hp, hd]
  · intro body r hp hd he
    simp [sendPayload, hp, hd, he]

/-- Witness for C1: a transport oracle that fails with a fixed cause makes
`sendPayload` fail with a transport error carrying that cause. -/
theorem sendPayload_interpretation_witness :
    sendPayload (NewWebHook (strBytes "example-access-token")) (strBytes "0")
        (fun _ _ => .failure (strBytes "dial tcp: connection refused"))
        (fun _ => .error []) {}
      = .error (.transportError (strBytes "dial tcp: connection refused")) :=
  (sendPayload_interpretation _ _ _ _ _).2.1 _ rfl

/-- Counterexample for C3: with exactly one title and zero URLs,
`SendActionCardMsg` returns the "empty" validation error — the emptiness
check fires on the empty URL list before the length comparison is reached —
not the "length mismatch" error the claim asserts. -/
theorem sendActionCard_one_title_zero_urls_cex :
    (SendActionCardMsg (NewWebHook (strBytes "example-access-token")) (strBytes "0")
        (fun _ _ => .failure []) (fun _ => .error [])
        "A action card message" "This is a action card message"
        ["Title 1"] [] true true).2
      = .error (.validationError .empty) ∧
    DTError.validationError .empty ≠ DTError.validationError .lengthMismatch := by
  exact ⟨rfl, by decide⟩

/-- C3 as amended: `SendActionCardMsg` fails with the "empty" validation
error whenever either list is empty (so also with one title and zero URLs);
it fails with the "length mismatch" error exactly when both lists are
non-empty and their lengths differ; and in every such case the result does
not depend on the transport or the decoder, i.e. the failure occurs before
dispatch is attempted. -/
theorem sendActionCard_validation (w : WebHook) (timestamp : GoStr)
    (post : GoStr → PayLoad → PostResult) (decode : GoStr → Except GoStr Response)
    (title content : String) (hideAvatar btnOrientation : Bool) :
    (∀ linkTitles linkUrls : List String, linkTitles = [] ∨ linkUrls = [] →
       (SendActionCardMsg w timestamp post decode title content linkTitles linkUrls
          hideAvatar btnOrientation).2 = .error (.validationError .empty)) ∧
    (∀ linkTitles linkUrls : List String, linkTitles ≠ [] → linkUrls ≠ [] →
       linkUrls.length ≠ linkTitles.length →
       (SendActionCardMsg w timestamp post decode title content linkTitles linkUrls
          hideAvatar btnOrientation).2 = .error (.validationError .lengthMismatch)) ∧
    (∀ linkTitles linkUrls : List String,
       linkTitles = [] ∨ linkUrls = [] ∨ linkUrls.length ≠ linkTitles.length →
       ∀ post' decode',
         SendActionCardMsg w timestamp post decode title content linkTitles linkUrls
            hideAvatar btnOrientation
           = SendActionCardMsg w timestamp post' decode' title content linkTitles linkUrls
              hideAvatar btnOrientation) := by
  refine ⟨?_, ?_, ?_⟩
  · intro lt lu h
    rcases h with h | h <;> subst h <;> simp [SendActionCardMsg]
  · intro lt lu ht hu hne
    simp [SendActionCardMsg, ht, hu, hne]
  · intro lt lu h post' decode'
    rcases h with h | h | h
    · subst h; simp [SendActionCardMsg]
    · subst h; simp [SendActionCardMsg]
    · by_cases h1 : lt = [] ∨ lu = []
      · rcases h1 with h1 | h1 <;> subst h1 <;> simp [SendActionCardMsg]
      · simp [SendActionCardMsg, h1, h]

/-- Witness for the amended C3: empty titles and empty URLs produce the
"empty" validation error. -/
theorem sendActionCard_validation_witness :
    (SendActionCardMsg (NewWebHook (strBytes "example-access-token")) (strBytes "0")
        (fun _ _ => .failure []) (fun _ => .error [])
        "A action card message" "This is a action card message"
        [] [] true true).2
      = .error (.validationError .empty) :=
  (sendActionCard_validation _ _ _ _ _ _ _ _).1 [] [] (Or.inl rfl)

/-- C5: dispatch resolves the target URL by the containment test: when the
access token contains the API base URL, the token itself is the endpoint and
no `access_token` parameter is among the parameters to merge (with no secret
configured nothing at all is merged, so a token equal to
`apiURL + "?already=here"` is posted to exactly that string); otherwise the
token is appended as the `access_token` query parameter of the base URL. -/
theorem dispatchURL_resolution :
    (∀ (w : WebHook) (ts : GoStr), goContains w.AccessToken w.APIURL = true →
       w.Secret = [] → dispatchURL w ts = w.AccessToken) ∧
    (∀ (w : WebHook) (ts : GoStr), goContains w.AccessToken w.APIURL = true →
       ∀ p ∈ dispatchParams w ts, p.1 ≠ strBytes "access_token") ∧
    (∀ (w : WebHook) (ts : GoStr), goContains w.AccessToken w.APIURL = false →
       w.Secret = [] →
       dispatchURL w ts = addParamsToURL [(strBytes "access_token", w.AccessToken)] w.APIURL) ∧
    (∀ ts : GoStr,
       dispatchURL ⟨baseAPIURL ++ strBytes "?already=here", baseAPIURL, []⟩ ts
         = baseAPIURL ++ strBytes "?already=here") := by
  refine ⟨?_, ?_, ?_, ?_⟩
  · intro w ts hc hs
    simp [dispatchURL, dispatchParams, dispatchBaseURL, hc, hs]
  · intro w ts hc p hp
    by_cases hs : w.Secret = []
    · simp [dispatchParams, hc, hs] at hp
    · simp [dispatchParams, hc, hs] at hp
      rcases hp with rfl | rfl
      · show strBytes "timestamp" ≠ strBytes "access_token"
        decide
      · show strBytes "sign" ≠ strBytes "access_token"
        decide
  · intro w ts hc hs
    simp [dispatchURL, dispatchParams, dispatchBaseURL, hc, hs]
  · intro ts
    have hc : goContains (baseAPIURL ++ strBytes "?already=here") baseAPIURL = true := by
      decide
    simp [dispatchURL, dispatchParams, dispatchBaseURL, hc]

/-- Witness for C5: with a bare token and no secret, dispatch posts to the
base URL with the token merged in as `access_token`. -/
theorem dispatchURL_resolution_witness :
    dispatchURL ⟨strBytes "tok", baseAPIURL, []⟩ []
      = addParamsToURL [(strBytes "access_token", strBytes "tok")] baseAPIURL :=
  dispatchURL_resolution.2.2.1 ⟨strBytes "tok", baseAPIURL, []⟩ [] (by decide) rfl

set_option maxRecDepth 100000 in
/-- C9: when the access token contains the API base URL and a secret is
also configured, dispatch still merges the `timestamp` and `sign` query
parameters into the token URL through `addParamsToURL` (which re-parses and
re-encodes its query string), so the override URL is not posted verbatim in
that case. -/
theorem dispatchURL_override_with_secret :
    (∀ (w : WebHook) (ts : GoStr), goContains w.AccessToken w.APIURL = true →
       w.Secret ≠ [] →
       dispatchURL w ts = addParamsToURL
         [(strBytes "timestamp", ts), (strBytes "sign", (getSign w.Secret ts).2)]
         w.AccessToken) ∧
    dispatchURL ⟨baseAPIURL ++ strBytes "?already=here", baseAPIURL, strBytes "testsecret"⟩
        (strBytes "1577262236757")
      ≠ baseAPIURL ++ strBytes "?already=here" := by
  constructor
  · intro w ts hc hs
    simp [dispatchURL, dispatchParams, dispatchBaseURL, hc, hs, getSign]
  · decide

/-- Witness for C9: a concrete override token with a secret configured is
dispatched through `addParamsToURL`. -/
theorem dispatchURL_override_with_secret_witness :
    dispatchURL ⟨baseAPIURL ++ strBytes "?x=1", baseAPIURL, strBytes "s"⟩ (strBytes "7")
      = addParamsToURL
          [(strBytes "timestamp", strBytes "7"),
           (strBytes "sign", (getSign (strBytes "s") (strBytes "7")).2)]
          (baseAPIURL ++ strBytes "?x=1") :=
  dispatchURL_override_with_secret.1 ⟨baseAPIURL ++ strBytes "?x=1", baseAPIURL, strBytes "s"⟩
    (strBytes "7") (by decide) (by decide)

/-- The inline mentions `SendMarkdownMsg` appends: one `" @<mobile>"` per
mobile matching the pattern, in order, and nothing for the others. -/
def inlineMentions : List String → String
  | [] => ""
  | m :: ms => (if matchMobileStr m then " @" ++ m else "") ++ inlineMentions ms

/-- Once a mention has been appended (`firstLine` set), the loop only
appends further mentions. -/
theorem markdownFold_true (ms : List String) : ∀ c : String,
    ms.foldl markdownStep (c, true) = (c ++ inlineMentions ms, true) := by
  induction ms with
  | nil => intro c; simp [inlineMentions]
  | cons m ms ih =>
      intro c
      by_cases hm : matchMobileStr m
      · simp [markdownStep, hm, inlineMentions, ih, String.append_assoc]
      · simp [markdownStep, hm, inlineMentions, ih]

/-- The whole loop from the initial state: the `"#####"` marker is inserted
once, just before the first appended mention, and only when some mobile
matches. -/
theorem markdownFold_false (ms : List String) : ∀ c : String,
    ms.foldl markdownStep (c, false) =
      if ms.any matchMobileStr then (c ++ "#####" ++ inlineMentions ms, true)
      else (c, false) := by
  induction ms with
  | nil => intro c; simp
  | cons m ms ih =>
      intro c
      by_cases hm : matchMobileStr m
      · simp [markdownStep, hm, inlineMentions, markdownFold_true, String.append_assoc]
        rfl
      · simp [markdownStep, hm, inlineMentions, ih]

/-- C7: the markdown content after `SendMarkdownMsg`'s loop is the original
content, followed — when at least one supplied mobile matches the pattern —
by a single `"#####"` marker and then `" @<mobile>"` for exactly the
matching mobiles in order; the at-block keeps the full mobile list either
way; and `SendMarkdown("T", "body", false, "13800138000")` produces exactly
`"body" ++ "#####" ++ " @13800138000"`. -/
theorem sendMarkdown_mentions :
    (∀ (content : String) (mobiles : List String),
       markdownContent content mobiles =
         if mobiles.any matchMobileStr
         then content ++ "#####" ++ inlineMentions mobiles
         else content) ∧
    (∀ (title content : String) (isAtAll : Bool) (mobiles : List String),
       (markdownPayload title content isAtAll mobiles).At.AtMobiles = mobiles ∧
       (markdownPayload title content isAtAll mobiles).At.IsAtAll = isAtAll ∧
       (markdownPayload title content isAtAll mobiles).Markdown.Text
         = markdownContent content mobiles) ∧
    (markdownPayload "T" "body" false ["13800138000"]).Markdown.Text
      = "body" ++ "#####" ++ " @13800138000" := by
  refine ⟨?_, fun _ _ _ _ => ⟨rfl, rfl, rfl⟩, by decide⟩
  intro c ms
  rw [markdownContent, markdownFold_false]
  by_cases h : ms.any matchMobileStr <;> simp [h]

/-- The mobile pattern as the spec describes it, used only to exhibit the
divergence: an 11-digit string whose first digit is 1 and second digit is
one of 3..9, where second digit 4 requires third digit 5 or 7, second digit
5 requires third digit other than 4, and the remaining digits are
arbitrary. -/
def specMobile (s : List Char) : Bool :=
  decide (s.length = 11) && s.all isDigitChar && (s.getD 0 ' ' == '1') &&
  ((s.getD 1 ' ' == '3') || (s.getD 1 ' ' == '4') || (s.getD 1 ' ' == '5') ||
   (s.getD 1 ' ' == '6') || (s.getD 1 ' ' == '7') || (s.getD 1 ' ' == '8') ||
   (s.getD 1 ' ' == '9')) &&
  (!(s.getD 1 ' ' == '4') || (s.getD 2 ' ' == '5') || (s.getD 2 ' ' == '7')) &&
  (!(s.getD 1 ' ' == '5') || !(s.getD 2 ' ' == '4'))

/-- Counterexample for C4: `"16912345678"` satisfies every condition of the
claimed pattern (11 digits, leading 1, second digit 6), yet the compiled
regex `^1([38][0-9]|14[57]|5[^4])\d{8}$` rejects it — it has no alternative
for a second digit of 6. -/
theorem matchMobile_spec_cex :
    specMobile "16912345678".toList = true ∧ matchMobile "16912345678".toList = false := by
  decide

/-- C4 as amended: a string matches the regex `^1([38][0-9]|14[57]|5[^4])\d{8}$`
exactly when, after a leading `1`, it continues with `3` or `8` and a digit,
or with `5` and any character other than `4`, followed in both cases by
exactly eight digits (total length 11); or — via the `14[57]` alternative,
whose own leading `1` follows the anchored `1` — with `1`, `4`, then `5` or
`7`, followed by exactly eight digits (total length 12). In particular
`"13800138000"` matches. -/
theorem matchMobile_amended :
    (∀ s : List Char, matchMobile s = true ↔
       ((s.length = 11 ∧ s.getD 0 ' ' = '1' ∧
          (((s.getD 1 ' ' = '3' ∨ s.getD 1 ' ' = '8') ∧ isDigitChar (s.getD 2 ' ') = true) ∨
           (s.getD 1 ' ' = '5' ∧ s.getD 2 ' ' ≠ '4')) ∧
          ∀ c ∈ s.drop 3, isDigitChar c = true) ∨
        (s.length = 12 ∧ s.getD 0 ' ' = '1' ∧ s.getD 1 ' ' = '1' ∧ s.getD 2 ' ' = '4' ∧
          (s.getD 3 ' ' = '5' ∨ s.getD 3 ' ' = '7') ∧
          ∀ c ∈ s.drop 4, isDigitChar c = true))) ∧
    matchMobileStr "13800138000" = true := by
  constructor
  · intro s
    rcases s with _ | ⟨c0, _ | ⟨c1, _ | ⟨c2, _ | ⟨c3, rest⟩⟩⟩⟩
    · simp [matchMobile]
    · simp [matchMobile, matchGroupTail]
    · simp [matchMobile, matchGroupTail]
    · simp [matchMobile, matchGroupTail, digits8]
    · simp only [matchMobile, matchGroupTail, digits8, Bool.and_eq_true, beq_iff_eq,
        Bool.or_eq_true, List.length_cons, List.all_eq_true, bne_iff_ne, ne_eq,
        List.getD_cons_zero, List.getD_cons_succ, List.drop_succ_cons, List.drop_zero,
        List.mem_cons, decide_eq_true_eq]
      split_ifs with hA hB hC
      · constructor
        · rintro ⟨h0, h⟩
          simp only [Bool.and_eq_true, beq_iff_eq] at h
          refine Or.inl ⟨by omega, h0, Or.inl ⟨hA.1, hA.2⟩, ?_⟩
          simp_all
        · rintro (⟨hlen, h0, hB1, hall⟩ | ⟨hlen, h0, h1, h4, h57, hall⟩)
          · simp_all
          · simp_all
      · constructor
        · rintro ⟨h0, h⟩
          simp only [Bool.and_eq_true, Bool.or_eq_true, beq_iff_eq, List.all_eq_true] at h
          rcases h with ⟨h57, hlen, hall⟩
          exact Or.inr ⟨by omega, h0, hB.1, hB.2, h57, hall⟩
        · rintro (⟨hlen, h0, hB1, hall⟩ | ⟨hlen, h0, h1, h4, h57, hall⟩)
          · simp_all
          · simp_all
      · constructor
        · rintro ⟨h0, h⟩
          simp only [Bool.and_eq_true, beq_iff_eq] at h
          refine Or.inl ⟨by omega, h0, Or.inr ⟨hC.1, hC.2⟩, ?_⟩
          simp_all
        · rintro (⟨hlen, h0, hB1, hall⟩ | ⟨hlen, h0, h1, h4, h57, hall⟩)
          · simp_all
          · simp_all
      · constructor
        · rintro ⟨h0, h⟩
          simp at h
        · rintro (⟨hlen, h0, hB1, hall⟩ | ⟨hlen, h0, h1, h4, h57, hall⟩)
          · rcases hB1 with ⟨h38, hd⟩ | ⟨h5, h4'⟩
            · exact absurd ⟨h38, hd⟩ hA
            · exact absurd ⟨h5, h4'⟩ hC
          · simp_all
  · decide


set_option maxRecDepth 1000000 in
/-- Counterexample for C6: at a concrete secret and timestamp the final URL
is `...?access_token=tok&sign=...&timestamp=...` — `Values.Encode` sorts the
query keys, so `sign` comes before `timestamp` — and the claimed substring
`timestamp=<timestamp>&sign=<urlencoded signature>` does not occur in it. -/
theorem dispatchURL_timestamp_sign_cex :
    dispatchURL ⟨strBytes "tok", baseAPIURL, strBytes "testsecret"⟩ (strBytes "1577262236757")
      = strBytes "https://oapi.dingtalk.com/robot/send?access_token=tok&sign=J%2BBiSbR3jshnMXl7lBt86VHVkxu%2FBShC2VzSWYBVCKE%3D&timestamp=1577262236757" ∧
    goContains
      (dispatchURL ⟨strBytes "tok", baseAPIURL, strBytes "testsecret"⟩ (strBytes "1577262236757"))
      (strBytes "timestamp=1577262236757&sign=J%2BBiSbR3jshnMXl7lBt86VHVkxu%2FBShC2VzSWYBVCKE%3D")
      = false := by
  constructor <;> decide

/-- `strings.Cut` finds nothing when the separator is absent. -/
theorem cutByte_not_mem (sep : Nat) (s : GoStr) : sep ∉ s → cutByte sep s = (s, none) := by
  induction s with
  | nil => intro h; rfl
  | cons b rest ih =>
      intro h
      have hb : ¬ b = sep := by
        intro e
        exact h (by simp [e])
      simp [cutByte, hb, ih (fun e => h (List.mem_cons_of_mem _ e))]

/-- `url.QueryEscape` leaves an all-digit string unchanged. -/
theorem queryEscape_digits (ts : GoStr) : (∀ b ∈ ts, 48 ≤ b ∧ b ≤ 57) → queryEscape ts = ts := by
  induction ts with
  | nil => intro h; rfl
  | cons b rest ih =>
      intro h
      have hb : isUnreservedByte b = true := by
        have := h b (by simp)
        simp [isUnreservedByte]
        omega
      simp [queryEscape, hb, ih (fun c hc => h c (List.mem_cons_of_mem _ hc))]

/-- C6 as amended: when a secret is configured (normal token path, base URL
without query or fragment, all-digit timestamp), the final URL is
`apiURL?access_token=<esc token>&sign=<esc signature>&timestamp=<timestamp>`:
`Values.Encode` emits the keys in sorted order, so the URL contains the
substring `sign=<urlencoded signature>&timestamp=<timestamp>` — `sign`
immediately before `timestamp`, not the claimed other way around. -/
theorem dispatchURL_sign_before_timestamp (w : WebHook) (ts : GoStr)
    (hc : goContains w.AccessToken w.APIURL = false)
    (hs : w.Secret ≠ [])
    (hq : 63 ∉ w.APIURL) (hf : 35 ∉ w.APIURL)
    (hts : ∀ b ∈ ts, 48 ≤ b ∧ b ≤ 57) :
    dispatchURL w ts
      = w.APIURL ++ 63 :: (strBytes "access_token=" ++ queryEscape w.AccessToken ++
          strBytes "&sign=" ++ queryEscape (getSign w.Secret ts).2 ++
          strBytes "&timestamp=" ++ ts) ∧
    ∃ pre post, dispatchURL w ts
      = pre ++ (strBytes "sign=" ++ queryEscape (getSign w.Secret ts).2 ++
          strBytes "&timestamp=" ++ ts) ++ post := by
  have k1 : strBytes "access_token" ≠ strBytes "timestamp" := by decide
  have k2 : strBytes "access_token" ≠ strBytes "sign" := by decide
  have k3 : strBytes "timestamp" ≠ strBytes "sign" := by decide
  have s1 : bytesLE (strBytes "access_token") (strBytes "sign") = true := by decide
  have s2 : bytesLE (strBytes "timestamp") (strBytes "sign") = false := by decide
  have q1 : queryEscape (strBytes "access_token") = strBytes "access_token" := by decide
  have q2 : queryEscape (strBytes "sign") = strBytes "sign" := by decide
  have q3 : queryEscape (strBytes "timestamp") = strBytes "timestamp" := by decide
  have a1 : strBytes "access_token" ≠ ([] : GoStr) := by decide
  have l1 : strBytes "access_token=" = strBytes "access_token" ++ [61] := by decide
  have l2 : strBytes "&sign=" = 38 :: (strBytes "sign" ++ [61]) := by decide
  have l3 : strBytes "&timestamp=" = 38 :: (strBytes "timestamp" ++ [61]) := by decide
  have h1 : dispatchParams w ts
      = [(strBytes "access_token", w.AccessToken), (strBytes "timestamp", ts),
         (strBytes "sign", (getSign w.Secret ts).2)] := by
    simp [dispatchParams, hc, hs, getSign]
  have h2 : dispatchURL w ts = addParamsToURL (dispatchParams w ts) w.APIURL := by
    rw [dispatchURL, if_neg]
    · rw [dispatchBaseURL, if_neg]
      simp [hc]
    · rw [h1]
      simp
  have hmain : dispatchURL w ts
      = w.APIURL ++ 63 :: (strBytes "access_token=" ++ queryEscape w.AccessToken ++
          strBytes "&sign=" ++ queryEscape (getSign w.Secret ts).2 ++
          strBytes "&timestamp=" ++ ts) := by
    rw [h2, h1, addParamsToURL]
    rw [cutByte_not_mem 35 _ hf, cutByte_not_mem 63 _ hq]
    simp only [parseQuery, segmentsOf, List.foldl_nil, List.foldl_cons, List.length_nil]
    simp only [setParam, sortVals, insertSorted, encodeValues, joinAmp, k1, k2, k3, s1, s2,
      if_false, if_true, List.foldr_cons, List.foldr_nil, List.map_cons, List.map_nil]
    simp [q1, q2, q3, queryEscape_digits ts hts, l1, l2, l3, a1, List.append_assoc]
  have l4 : strBytes "sign=" = strBytes "sign" ++ [61] := by decide
  refine ⟨hmain, ⟨w.APIURL ++ 63 :: (strBytes "access_token=" ++ queryEscape w.AccessToken ++ [38]), [], ?_⟩⟩
  rw [hmain, l2]
  simp [l4, List.append_assoc]

/-- Witness for the amended C6 at a concrete client and timestamp. -/
theorem dispatchURL_sign_before_timestamp_witness :
    dispatchURL ⟨strBytes "tok", baseAPIURL, strBytes "testsecret"⟩ (strBytes "1577262236757")
      = baseAPIURL ++ 63 :: (strBytes "access_token=" ++ queryEscape (strBytes "tok") ++
          strBytes "&sign=" ++
          queryEscape ((getSign (strBytes "testsecret") (strBytes "1577262236757")).2) ++
          strBytes "&timestamp=" ++ strBytes "1577262236757") :=
  (dispatchURL_sign_before_timestamp ⟨strBytes "tok", baseAPIURL, strBytes "testsecret"⟩
    (strBytes "1577262236757") (by decide) (by decide) (by decide) (by decide) (by decide)).1
theorem cutByte_append (sep : Nat) (a b : GoStr) :
    sep ∉ a → cutByte sep (a ++ sep :: b) = (a, some b) := by
  induction a with
  | nil => intro h; simp [cutByte]
  | cons x rest ih =>
      intro h
      have hx : ¬ x = sep := by
        intro e
        exact h (by simp [e])
      simp [cutByte, hx, ih (fun e => h (List.mem_cons_of_mem _ e))]

theorem mem_cutByte_fst (sep : Nat) (s : GoStr) : ∀ x ∈ (cutByte sep s).1, x ∈ s := by
  induction s with
  | nil => simp [cutByte]
  | cons b rest ih =>
      intro x hx
      by_cases hb : b = sep
      · simp [cutByte, hb] at hx
      · simp [cutByte, hb] at hx
        rcases hx with rfl | hx
        · simp
        · exact List.mem_cons_of_mem _ (ih x hx)

theorem mem_cutByte_snd (sep : Nat) (s p : GoStr) :
    (cutByte sep s).2 = some p → ∀ x ∈ p, x ∈ s := by
  induction s with
  | nil => simp [cutByte]
  | cons b rest ih =>
      intro hp x hx
      by_cases hb : b = sep
      · simp [cutByte, hb] at hp
        subst hp
        exact List.mem_cons_of_mem _ hx
      · simp [cutByte, hb] at hp
        exact List.mem_cons_of_mem _ (ih hp x hx)

theorem hexVal_hexUpperDigit (n : Nat) (h : n < 16) : hexVal (hexUpperDigit n) = some n := by
  unfold hexUpperDigit hexVal
  split_ifs <;> simp_all <;> omega

theorem hexVal_lt (b v : Nat) : hexVal b = some v → v < 16 := by
  unfold hexVal
  split_ifs <;> simp_all <;> omega

theorem hexUpperDigit_props (n : Nat) (h : n < 16) :
    hexUpperDigit n ≠ 38 ∧ hexUpperDigit n ≠ 61 ∧ hexUpperDigit n ≠ 59 ∧
    hexUpperDigit n ≠ 35 ∧ hexUpperDigit n ≠ 63 := by
  unfold hexUpperDigit
  split_ifs <;> refine ⟨?_, ?_, ?_, ?_, ?_⟩ <;> omega

theorem unreserved_props (b : Nat) (hu : isUnreservedByte b = true) :
    b ≠ 38 ∧ b ≠ 61 ∧ b ≠ 59 ∧ b ≠ 35 ∧ b ≠ 63 := by
  simp [isUnreservedByte] at hu
  refine ⟨?_, ?_, ?_, ?_, ?_⟩ <;> omega

theorem queryUnescape_cons_ne (b : Nat) (l : GoStr) (h37 : ¬ b = 37) (h43 : ¬ b = 43) :
    queryUnescape (b :: l) = (queryUnescape l).map (fun r => b :: r) := by
  rcases l with _ | ⟨x, _ | ⟨y, l⟩⟩ <;> simp [queryUnescape, h37, h43]

theorem queryUnescape_plus (l : GoStr) :
    queryUnescape (43 :: l) = (queryUnescape l).map (fun r => 32 :: r) := by
  rcases l with _ | ⟨x, _ | ⟨y, l⟩⟩ <;> simp [queryUnescape]

theorem queryUnescape_percent (h1 h2 : Nat) (l : GoStr) :
    queryUnescape (37 :: h1 :: h2 :: l) =
      match hexVal h1, hexVal h2, queryUnescape l with
      | some v1, some v2, some r => some ((v1 * 16 + v2) :: r)
      | _, _, _ => none := by
  rfl

theorem queryUnescape_queryEscape (s : GoStr) :
    (∀ b ∈ s, b < 256) → queryUnescape (queryEscape s) = some s := by
  induction s with
  | nil => intro h; rfl
  | cons b rest ih =>
      intro h
      have hb : b < 256 := h b (by simp)
      have hr := ih (fun c hc => h c (List.mem_cons_of_mem _ hc))
      by_cases hu : isUnreservedByte b = true
      · have h37 : ¬ b = 37 := by
          intro e
          rw [e] at hu
          exact absurd hu (by decide)
        have h43 : ¬ b = 43 := by
          intro e
          rw [e] at hu
          exact absurd hu (by decide)
        simp [queryEscape, hu, queryUnescape_cons_ne b _ h37 h43, hr]
      · have hu' : isUnreservedByte b = false := by
          cases hb' : isUnreservedByte b
          · rfl
          · exact absurd hb' hu
        by_cases h32 : b = 32
        · subst h32
          simp [queryEscape, hu', queryUnescape_plus, hr]
        · simp only [queryEscape, hu', h32, Bool.false_eq_true, if_false, reduceIte]
          rw [queryUnescape_percent]
          rw [hexVal_hexUpperDigit _ (by omega), hexVal_hexUpperDigit _ (by omega), hr]
          simp
          omega

theorem queryEscape_mem_ne (s : GoStr) (hv : ∀ b ∈ s, b < 256) :
    ∀ x ∈ queryEscape s, x ≠ 38 ∧ x ≠ 61 ∧ x ≠ 59 ∧ x ≠ 35 ∧ x ≠ 63 := by
  induction s with
  | nil => simp [queryEscape]
  | cons b rest ih =>
      have hb : b < 256 := hv b (by simp)
      have ihr := ih (fun c hc => hv c (List.mem_cons_of_mem _ hc))
      intro x hx
      by_cases hu : isUnreservedByte b = true
      · simp [queryEscape, hu] at hx
        rcases hx with hx | hx
        · subst hx
          exact unreserved_props x hu
        · exact ihr x hx
      · by_cases h32 : b = 32
        · simp [queryEscape, hu, h32] at hx
          cases hx with
          | head => refine ⟨?_, ?_, ?_, ?_, ?_⟩ <;> decide
          | tail _ hx => exact ihr x hx
        · simp [queryEscape, hu, h32] at hx
          rcases hx with hx | hx | hx | hx
          · subst hx
            refine ⟨?_, ?_, ?_, ?_, ?_⟩ <;> decide
          · subst hx
            exact hexUpperDigit_props _ (by omega)
          · subst hx
            exact hexUpperDigit_props _ (by omega)
          · exact ihr x hx

def validStr (s : GoStr) : Prop := ∀ b ∈ s, b < 256

def validValsP (m : Values) : Prop :=
  ∀ e ∈ m, validStr e.1 ∧ ∀ v ∈ e.2, validStr v

def valsNonempty (m : Values) : Prop := ∀ e ∈ m, e.2 ≠ []

theorem segmentsOf_succ (fuel : Nat) (b : Nat) (rest : GoStr) :
    segmentsOf (fuel + 1) (b :: rest) =
      match cutByte 38 (b :: rest) with
      | (seg, none) => [seg]
      | (seg, some more) => seg :: segmentsOf fuel more := rfl

theorem segmentsOf_joinAmp (segs : List GoStr)
    (h : ∀ g ∈ segs, g ≠ [] ∧ 38 ∉ g) :
    ∀ fuel, (joinAmp segs).length ≤ fuel → segmentsOf fuel (joinAmp segs) = segs := by
  induction segs with
  | nil =>
      intro fuel hf
      simp [joinAmp, segmentsOf]
  | cons s rest ih =>
      intro fuel hf
      rcases h s (by simp) with ⟨hne, h38⟩
      rcases rest with _ | ⟨s2, rest2⟩
      · rcases s with _ | ⟨b, sb⟩
        · exact absurd rfl hne
        · simp only [joinAmp] at hf ⊢
          rcases fuel with _ | f
          · simp at hf
          · rw [segmentsOf_succ, cutByte_not_mem 38 _ h38]
      · have hj : joinAmp (s :: s2 :: rest2) = s ++ 38 :: joinAmp (s2 :: rest2) := rfl
        rw [hj] at hf ⊢
        rcases s with _ | ⟨b, sb⟩
        · exact absurd rfl hne
        · rcases fuel with _ | f
          · simp at hf
          · have hsplit : (b :: sb) ++ 38 :: joinAmp (s2 :: rest2)
                = b :: (sb ++ 38 :: joinAmp (s2 :: rest2)) := rfl
            rw [hsplit, segmentsOf_succ]
            have hcut : cutByte 38 (b :: (sb ++ 38 :: joinAmp (s2 :: rest2)))
                = (b :: sb, some (joinAmp (s2 :: rest2))) := by
              rw [← hsplit]
              exact cutByte_append 38 _ _ h38
            rw [hcut]
            have hlen : (joinAmp (s2 :: rest2)).length ≤ f := by
              simp [hsplit] at hf
              omega
            show (b :: sb) :: segmentsOf f (joinAmp (s2 :: rest2)) = (b :: sb) :: s2 :: rest2
            rw [ih (fun g hg => h g (List.mem_cons_of_mem _ hg)) f hlen]

theorem mem_segmentsOf (fuel : Nat) :
    ∀ (s g : GoStr), g ∈ segmentsOf fuel s → ∀ x ∈ g, x ∈ s := by
  induction fuel with
  | zero =>
      intro s g hg
      rcases s with _ | ⟨b, r⟩ <;> simp [segmentsOf] at hg
  | succ f ih =>
      intro s g hg x hx
      rcases s with _ | ⟨b, r⟩
      · simp [segmentsOf] at hg
      · rw [segmentsOf_succ] at hg
        rcases hcut : cutByte 38 (b :: r) with ⟨pre, o⟩
        rw [hcut] at hg
        rcases o with _ | more
        · simp at hg
          subst hg
          have : x ∈ (cutByte 38 (b :: r)).1 := by
            rw [hcut]
            exact hx
          exact mem_cutByte_fst 38 _ x this
        · simp at hg
          rcases hg with hg | hg
          · subst hg
            have : x ∈ (cutByte 38 (b :: r)).1 := by
              rw [hcut]
              exact hx
            exact mem_cutByte_fst 38 _ x this
          · have hxm : x ∈ more := ih more g hg x hx
            exact mem_cutByte_snd 38 (b :: r) more (by rw [hcut]) x hxm

theorem mem_joinAmp (segs : List GoStr) :
    ∀ x ∈ joinAmp segs, x = 38 ∨ ∃ g ∈ segs, x ∈ g := by
  induction segs with
  | nil => simp [joinAmp]
  | cons s rest ih =>
      rcases rest with _ | ⟨s2, r2⟩
      · intro x hx
        simp only [joinAmp] at hx
        right
        exact ⟨s, by simp, hx⟩
      · intro x hx
        have hj : joinAmp (s :: s2 :: r2) = s ++ 38 :: joinAmp (s2 :: r2) := rfl
        rw [hj] at hx
        rcases List.mem_append.1 hx with hx | hx
        · right
          exact ⟨s, by simp, hx⟩
        · cases hx with
          | head => left; rfl
          | tail _ hx =>
              rcases ih x hx with h38 | ⟨g, hg, hxg⟩
              · left; exact h38
              · right; exact ⟨g, List.mem_cons_of_mem _ hg, hxg⟩

theorem lookupVals_eq_nil_of_not_mem (m : Values) (k : GoStr) :
    k ∉ m.map Prod.fst → lookupVals m k = [] := by
  induction m with
  | nil => intro h; rfl
  | cons e rest ih =>
      intro h
      have h1 : ¬ e.1 = k := by
        intro e1
        exact h (by simp [← e1])
      rcases e with ⟨k0, vs⟩
      simp only [lookupVals, h1, if_false, reduceIte]
      exact ih (fun hm => h (List.mem_cons_of_mem _ hm))

theorem lookupVals_appendVal (m : Values) (k v k' : GoStr) :
    lookupVals (appendVal m k v) k' =
      if k' = k then lookupVals m k' ++ [v] else lookupVals m k' := by
  induction m with
  | nil =>
      by_cases h : k' = k
      · subst h
        simp [appendVal, lookupVals]
      · simp [appendVal, lookupVals, h, Ne.symm h]
  | cons e rest ih =>
      rcases e with ⟨k0, vs⟩
      by_cases h0 : k0 = k
      · subst h0
        by_cases h' : k0 = k'
        · subst h'
          simp [appendVal, lookupVals]
        · simp [appendVal, lookupVals, h', Ne.symm h']
      · by_cases h' : k0 = k'
        · subst h'
          have hne : ¬ k0 = k := h0
          simp [appendVal, lookupVals, hne, Ne.symm hne]
        · simp [appendVal, lookupVals, h0, h', ih]

theorem keysOf_appendVal (m : Values) (k v : GoStr) :
    (appendVal m k v).map Prod.fst =
      if k ∈ m.map Prod.fst then m.map Prod.fst else m.map Prod.fst ++ [k] := by
  induction m with
  | nil => simp [appendVal]
  | cons e rest ih =>
      rcases e with ⟨k0, vs⟩
      by_cases h0 : k0 = k
      · subst h0
        simp [appendVal]
      · simp [appendVal, h0, ih, Ne.symm h0]
        split_ifs <;> simp_all [List.mem_cons]

theorem lookupVals_setParam (m : Values) (k v k' : GoStr) :
    lookupVals (setParam m k v) k' = if k' = k then [v] else lookupVals m k' := by
  induction m with
  | nil =>
      by_cases h : k' = k
      · subst h
        simp [setParam, lookupVals]
      · simp [setParam, lookupVals, h, Ne.symm h]
  | cons e rest ih =>
      rcases e with ⟨k0, vs⟩
      by_cases h0 : k0 = k
      · subst h0
        by_cases h' : k0 = k'
        · subst h'
          simp [setParam, lookupVals]
        · simp [setParam, lookupVals, h', Ne.symm h']
      · by_cases h' : k0 = k'
        · subst h'
          have hne : ¬ k0 = k := h0
          simp [setParam, lookupVals, hne, Ne.symm hne]
        · simp [setParam, lookupVals, h0, h', ih]

theorem keysOf_setParam (m : Values) (k v : GoStr) :
    (setParam m k v).map Prod.fst =
      if k ∈ m.map Prod.fst then m.map Prod.fst else m.map Prod.fst ++ [k] := by
  induction m with
  | nil => simp [setParam]
  | cons e rest ih =>
      rcases e with ⟨k0, vs⟩
      by_cases h0 : k0 = k
      · subst h0
        simp [setParam]
      · simp [setParam, h0, ih, Ne.symm h0]
        split_ifs <;> simp_all [List.mem_cons]

theorem insertSorted_perm (e : GoStr × List GoStr) (l : Values) :
    (insertSorted e l).Perm (e :: l) := by
  induction l with
  | nil => exact List.Perm.refl _
  | cons f rest ih =>
      by_cases h : bytesLE e.1 f.1 = true
      · simp only [insertSorted, h, if_true, reduceIte]
        exact List.Perm.refl _
      · simp only [insertSorted, h, if_false, reduceIte]
        exact (ih.cons f).trans (List.Perm.swap e f rest)

theorem sortVals_perm (m : Values) : (sortVals m).Perm m := by
  induction m with
  | nil => exact List.Perm.refl _
  | cons e rest ih => exact (insertSorted_perm e (sortVals rest)).trans (ih.cons e)

theorem lookupVals_perm (l₁ l₂ : Values) (p : l₁.Perm l₂) :
    (l₁.map Prod.fst).Nodup → ∀ k, lookupVals l₁ k = lookupVals l₂ k := by
  induction p with
  | nil => intro _ k; rfl
  | cons e p ih =>
      intro hnd k
      rcases e with ⟨k0, vs⟩
      simp only [List.map_cons, List.nodup_cons] at hnd
      by_cases h : k0 = k
      · simp [lookupVals, h]
      · simp only [lookupVals, h, if_false, reduceIte]
        exact ih hnd.2 k
  | swap x y l =>
      intro hnd k
      rcases x with ⟨kx, vx⟩
      rcases y with ⟨ky, vy⟩
      simp only [List.map_cons, List.nodup_cons, List.mem_cons] at hnd
      have hxy : ¬ ky = kx := fun e => hnd.1 (Or.inl e)
      by_cases h1 : ky = k
      · subst h1
        simp [lookupVals, Ne.symm hxy, hxy]
      · by_cases h2 : kx = k
        · subst h2
          simp [lookupVals, h1, hxy]
        · simp [lookupVals, h1, h2]
  | trans p₁ p₂ ih₁ ih₂ =>
      intro hnd k
      have hnd₂ := ((p₁.map Prod.fst).nodup_iff).1 hnd
      exact (ih₁ hnd k).trans (ih₂ hnd₂ k)

theorem nodup_keys_appendVal (m : Values) (k v : GoStr)
    (h : (m.map Prod.fst).Nodup) : ((appendVal m k v).map Prod.fst).Nodup := by
  rw [keysOf_appendVal]
  split_ifs with hm
  · exact h
  · rw [List.nodup_append]
    refine ⟨h, List.nodup_singleton _, ?_⟩
    intro a ha hb
    simp at hb
    subst hb
    exact hm ha

theorem nodup_keys_setParam (m : Values) (k v : GoStr)
    (h : (m.map Prod.fst).Nodup) : ((setParam m k v).map Prod.fst).Nodup := by
  rw [keysOf_setParam]
  split_ifs with hm
  · exact h
  · rw [List.nodup_append]
    refine ⟨h, List.nodup_singleton _, ?_⟩
    intro a ha hb
    simp at hb
    subst hb
    exact hm ha

theorem validValsP_appendVal (k v : GoStr) (hk : validStr k) (hv : validStr v) :
    ∀ m : Values, validValsP m → validValsP (appendVal m k v) := by
  intro m
  induction m with
  | nil =>
      intro _ e he
      simp [appendVal] at he
      subst he
      refine ⟨hk, ?_⟩
      intro w hw
      simp at hw
      subst hw
      exact hv
  | cons f rest ih =>
      intro hm e he
      rcases f with ⟨k0, vs⟩
      by_cases h0 : k0 = k
      · subst h0
        simp only [appendVal, if_true, reduceIte, List.mem_cons] at he
        rcases he with he | he
        · subst he
          rcases hm _ (List.mem_cons_self _ _) with ⟨hks, hvs⟩
          refine ⟨hks, ?_⟩
          intro w hw
          rcases List.mem_append.1 hw with hw | hw
          · exact hvs w hw
          · simp at hw
            subst hw
            exact hv
        · exact hm _ (List.mem_cons_of_mem _ he)
      · simp only [appendVal, h0, if_false, reduceIte, List.mem_cons] at he
        rcases he with he | he
        · subst he
          exact hm _ (List.mem_cons_self _ _)
        · exact ih (fun e' he' => hm e' (List.mem_cons_of_mem _ he')) e he

theorem validValsP_setParam (k v : GoStr) (hk : validStr k) (hv : validStr v) :
    ∀ m : Values, validValsP m → validValsP (setParam m k v) := by
  intro m
  induction m with
  | nil =>
      intro _ e he
      simp [setParam] at he
      subst he
      refine ⟨hk, ?_⟩
      intro w hw
      simp at hw
      subst hw
      exact hv
  | cons f rest ih =>
      intro hm e he
      rcases f with ⟨k0, vs⟩
      by_cases h0 : k0 = k
      · subst h0
        simp only [setParam, if_true, reduceIte, List.mem_cons] at he
        rcases he with he | he
        · subst he
          rcases hm _ (List.mem_cons_self _ _) with ⟨hks, _⟩
          refine ⟨hks, ?_⟩
          intro w hw
          simp at hw
          subst hw
          exact hv
        · exact hm _ (List.mem_cons_of_mem _ he)
      · simp only [setParam, h0, if_false, reduceIte, List.mem_cons] at he
        rcases he with he | he
        · subst he
          exact hm _ (List.mem_cons_self _ _)
        · exact ih (fun e' he' => hm e' (List.mem_cons_of_mem _ he')) e he

theorem valsNonempty_appendVal (k v : GoStr) :
    ∀ m : Values, valsNonempty m → valsNonempty (appendVal m k v) := by
  intro m
  induction m with
  | nil =>
      intro _ e he
      simp [appendVal] at he
      subst he
      simp
  | cons f rest ih =>
      intro hm e he
      rcases f with ⟨k0, vs⟩
      by_cases h0 : k0 = k
      · subst h0
        simp only [appendVal, if_true, reduceIte, List.mem_cons] at he
        rcases he with he | he
        · subst he
          simp
        · exact hm _ (List.mem_cons_of_mem _ he)
      · simp only [appendVal, h0, if_false, reduceIte, List.mem_cons] at he
        rcases he with he | he
        · subst he
          exact hm _ (List.mem_cons_self _ _)
        · exact ih (fun e' he' => hm e' (List.mem_cons_of_mem _ he')) e he

theorem valsNonempty_setParam (k v : GoStr) :
    ∀ m : Values, valsNonempty m → valsNonempty (setParam m k v) := by
  intro m
  induction m with
  | nil =>
      intro _ e he
      simp [setParam] at he
      subst he
      simp
  | cons f rest ih =>
      intro hm e he
      rcases f with ⟨k0, vs⟩
      by_cases h0 : k0 = k
      · subst h0
        simp only [setParam, if_true, reduceIte, List.mem_cons] at he
        rcases he with he | he
        · subst he
          simp
        · exact hm _ (List.mem_cons_of_mem _ he)
      · simp only [setParam, h0, if_false, reduceIte, List.mem_cons] at he
        rcases he with he | he
        · subst he
          exact hm _ (List.mem_cons_self _ _)
        · exact ih (fun e' he' => hm e' (List.mem_cons_of_mem _ he')) e he

theorem queryUnescape_valid : ∀ (n : Nat) (s t : GoStr), s.length ≤ n → validStr s →
    queryUnescape s = some t → validStr t := by
  intro n
  induction n with
  | zero =>
      intro s t hl hv he
      rcases s with _ | ⟨b, r⟩
      · simp [queryUnescape] at he
        subst he
        intro x hx
        simp at hx
      · simp at hl
  | succ m ih =>
      intro s t hl hv he
      rcases s with _ | ⟨b, r⟩
      · simp [queryUnescape] at he
        subst he
        intro x hx
        simp at hx
      · by_cases h37 : b = 37
        · subst h37
          rcases r with _ | ⟨h1, _ | ⟨h2, r2⟩⟩
          · simp [queryUnescape] at he
          · simp [queryUnescape] at he
          · rw [queryUnescape_percent] at he
            rcases e1 : hexVal h1 with _ | v1
            · rw [e1] at he
              simp at he
            · rcases e2 : hexVal h2 with _ | v2
              · rw [e1, e2] at he
                simp at he
              · rcases e3 : queryUnescape r2 with _ | r'
                · rw [e1, e2, e3] at he
                  simp at he
                · rw [e1, e2, e3] at he
                  simp at he
                  subst he
                  intro x hx
                  rcases List.mem_cons.1 hx with hx | hx
                  · subst hx
                    have hb1 := hexVal_lt h1 v1 e1
                    have hb2 := hexVal_lt h2 v2 e2
                    omega
                  · refine ih r2 r' (by simp at hl; omega)
                      (fun c hc => hv c (by simp [hc])) e3 x hx
        · by_cases h43 : b = 43
          · subst h43
            rw [queryUnescape_plus] at he
            rcases e3 : queryUnescape r with _ | r'
            · rw [e3] at he
              simp at he
            · rw [e3] at he
              simp at he
              subst he
              intro x hx
              rcases List.mem_cons.1 hx with hx | hx
              · subst hx
                omega
              · exact ih r r' (by simp at hl; omega)
                  (fun c hc => hv c (by simp [hc])) e3 x hx
          · rw [queryUnescape_cons_ne b r h37 h43] at he
            rcases e3 : queryUnescape r with _ | r'
            · rw [e3] at he
              simp at he
            · rw [e3] at he
              simp at he
              subst he
              intro x hx
              rcases List.mem_cons.1 hx with hx | hx
              · subst hx
                exact hv _ (List.mem_cons_self _ _)
              · exact ih r r' (by simp at hl; omega)
                  (fun c hc => hv c (by simp [hc])) e3 x hx

theorem upsertSeg_cases (m : Values) (seg : GoStr) :
    upsertSeg m seg = m ∨
    ∃ k v, upsertSeg m seg = appendVal m k v ∧
      queryUnescape (cutByte 61 seg).1 = some k ∧
      queryUnescape (match (cutByte 61 seg).2 with | some w => w | none => []) = some v := by
  unfold upsertSeg
  split_ifs with h1 h2
  · left
    rfl
  · left
    rfl
  · rcases e1 : queryUnescape (cutByte 61 seg).1 with _ | k
    · left
      simp [e1]
    · rcases e2 : queryUnescape
          (match (cutByte 61 seg).2 with | some w => w | none => []) with _ | v
      · left
        simp [e1, e2]
      · right
        exact ⟨k, v, by simp [e1, e2], rfl, rfl⟩

theorem upsertSeg_nodup (m : Values) (seg : GoStr)
    (h : (m.map Prod.fst).Nodup) : ((upsertSeg m seg).map Prod.fst).Nodup := by
  rcases upsertSeg_cases m seg with hc | ⟨k, v, hc, _, _⟩
  · rw [hc]
    exact h
  · rw [hc]
    exact nodup_keys_appendVal m k v h

theorem upsertSeg_valid (m : Values) (seg : GoStr)
    (hm : validValsP m) (hs : validStr seg) : validValsP (upsertSeg m seg) := by
  rcases upsertSeg_cases m seg with hc | ⟨k, v, hc, e1, e2⟩
  · rw [hc]
    exact hm
  · rw [hc]
    have hk : validStr k :=
      queryUnescape_valid (cutByte 61 seg).1.length _ _ (le_refl _)
        (fun b hb => hs b (mem_cutByte_fst 61 seg b hb)) e1
    have hvv : validStr v := by
      rcases ecut : (cutByte 61 seg).2 with _ | w
      · rw [ecut] at e2
        have hv0 : ([] : GoStr) = v := Option.some.inj e2
        subst hv0
        intro b hb
        simp at hb
      · rw [ecut] at e2
        exact queryUnescape_valid w.length _ _ (le_refl _)
          (fun b hb => hs b (mem_cutByte_snd 61 seg w ecut b hb)) e2
    exact validValsP_appendVal k v hk hvv m hm

theorem upsertSeg_nonempty (m : Values) (seg : GoStr)
    (hm : valsNonempty m) : valsNonempty (upsertSeg m seg) := by
  rcases upsertSeg_cases m seg with hc | ⟨k, v, hc, _, _⟩
  · rw [hc]
    exact hm
  · rw [hc]
    exact valsNonempty_appendVal k v m hm

theorem foldl_upsertSeg_nodup (segs : List GoStr) :
    ∀ m : Values, (m.map Prod.fst).Nodup →
      ((segs.foldl upsertSeg m).map Prod.fst).Nodup := by
  induction segs with
  | nil => intro m h; exact h
  | cons g rest ih =>
      intro m h
      exact ih _ (upsertSeg_nodup m g h)

theorem foldl_upsertSeg_valid (segs : List GoStr) :
    (∀ g ∈ segs, validStr g) →
    ∀ m : Values, validValsP m → validValsP (segs.foldl upsertSeg m) := by
  induction segs with
  | nil => intro _ m h; exact h
  | cons g rest ih =>
      intro hv m h
      exact ih (fun g' hg => hv g' (List.mem_cons_of_mem _ hg)) _
        (upsertSeg_valid m g h (hv g (by simp)))

theorem foldl_upsertSeg_nonempty (segs : List GoStr) :
    ∀ m : Values, valsNonempty m → valsNonempty (segs.foldl upsertSeg m) := by
  induction segs with
  | nil => intro m h; exact h
  | cons g rest ih =>
      intro m h
      exact ih _ (upsertSeg_nonempty m g h)

theorem parseQuery_nodup (s : GoStr) : ((parseQuery s).map Prod.fst).Nodup :=
  foldl_upsertSeg_nodup _ [] (by simp)

theorem parseQuery_valid (s : GoStr) (hs : validStr s) : validValsP (parseQuery s) := by
  refine foldl_upsertSeg_valid _ ?_ [] ?_
  · intro g hg b hb
    exact hs b (mem_segmentsOf s.length s g hg b hb)
  · intro e he
    simp at he

theorem parseQuery_nonempty (s : GoStr) : valsNonempty (parseQuery s) := by
  refine foldl_upsertSeg_nonempty _ [] ?_
  intro e he
  simp at he

theorem emitted_seg_props (k v : GoStr) (hk : validStr k) (hv : validStr v) :
    (queryEscape k ++ 61 :: queryEscape v) ≠ [] ∧
    38 ∉ (queryEscape k ++ 61 :: queryEscape v) ∧
    59 ∉ (queryEscape k ++ 61 :: queryEscape v) := by
  refine ⟨by simp, ?_, ?_⟩
  · intro hmem
    rcases List.mem_append.1 hmem with hm | hm
    · exact (queryEscape_mem_ne k hk 38 hm).1 rfl
    · rcases List.mem_cons.1 hm with e | hm
      · exact absurd e (by decide)
      · exact (queryEscape_mem_ne v hv 38 hm).1 rfl
  · intro hmem
    rcases List.mem_append.1 hmem with hm | hm
    · exact (queryEscape_mem_ne k hk 59 hm).2.2.1 rfl
    · rcases List.mem_cons.1 hm with e | hm
      · exact absurd e (by decide)
      · exact (queryEscape_mem_ne v hv 59 hm).2.2.1 rfl

theorem upsertSeg_emitted (m : Values) (k v : GoStr)
    (hk : validStr k) (hv : validStr v) :
    upsertSeg m (queryEscape k ++ 61 :: queryEscape v) = appendVal m k v := by
  rcases emitted_seg_props k v hk hv with ⟨hne, _, h59⟩
  have h61 : 61 ∉ queryEscape k := fun hm => (queryEscape_mem_ne k hk 61 hm).2.1 rfl
  have hcut : cutByte 61 (queryEscape k ++ 61 :: queryEscape v)
      = (queryEscape k, some (queryEscape v)) := cutByte_append 61 _ _ h61
  unfold upsertSeg
  simp only [h59, hne, if_false, reduceIte, hcut,
    queryUnescape_queryEscape k hk, queryUnescape_queryEscape v hv]

theorem foldl_upsertSeg_entry (k : GoStr) (hk : validStr k) :
    ∀ (vs : List GoStr), (∀ v ∈ vs, validStr v) → ∀ m : Values,
      ((vs.map (fun v => queryEscape k ++ 61 :: queryEscape v)).foldl upsertSeg m)
        = vs.foldl (fun m' v => appendVal m' k v) m := by
  intro vs
  induction vs with
  | nil => intro _ m; rfl
  | cons v rest ih =>
      intro hv m
      simp only [List.map_cons, List.foldl_cons]
      rw [upsertSeg_emitted m k v hk (hv v (by simp))]
      exact ih (fun w hw => hv w (List.mem_cons_of_mem _ hw)) _

theorem lookupVals_foldl_appendVal (k : GoStr) (vs : List GoStr) :
    ∀ (m : Values) (k' : GoStr),
      lookupVals (vs.foldl (fun m' v => appendVal m' k v) m) k'
        = if k' = k then lookupVals m k' ++ vs else lookupVals m k' := by
  induction vs with
  | nil =>
      intro m k'
      by_cases h : k' = k <;> simp [h]
  | cons v rest ih =>
      intro m k'
      simp only [List.foldl_cons]
      rw [ih]
      by_cases h : k' = k
      · simp [h, lookupVals_appendVal]
      · simp [h, lookupVals_appendVal]

theorem mem_emitted_segs : ∀ (es : Values) (g : GoStr),
    g ∈ es.foldr
        (fun e acc => (e.2.map (fun v => queryEscape e.1 ++ 61 :: queryEscape v)) ++ acc) [] →
    ∃ e ∈ es, ∃ v ∈ e.2, g = queryEscape e.1 ++ 61 :: queryEscape v := by
  intro es
  induction es with
  | nil =>
      intro g hg
      simp at hg
  | cons e rest ih =>
      intro g hg
      simp only [List.foldr_cons] at hg
      rcases List.mem_append.1 hg with hg | hg
      · rcases List.mem_map.1 hg with ⟨v, hv, he⟩
        exact ⟨e, by simp, v, hv, he.symm⟩
      · rcases ih g hg with ⟨e', he', v, hv, hgv⟩
        exact ⟨e', List.mem_cons_of_mem _ he', v, hv, hgv⟩

theorem parse_emitted : ∀ (es : Values), ((es.map Prod.fst).Nodup) →
    (∀ e ∈ es, validStr e.1 ∧ ∀ v ∈ e.2, validStr v) →
    ∀ (m : Values) (k' : GoStr),
      lookupVals
        ((es.foldr
            (fun e acc => (e.2.map (fun v => queryEscape e.1 ++ 61 :: queryEscape v)) ++ acc)
            []).foldl upsertSeg m) k'
        = if k' ∈ es.map Prod.fst then lookupVals m k' ++ lookupVals es k'
          else lookupVals m k' := by
  intro es
  induction es with
  | nil =>
      intro _ _ m k'
      simp [lookupVals]
  | cons e rest ih =>
      intro hnd hval m k'
      rcases e with ⟨k0, vs⟩
      simp only [List.foldr_cons, List.foldl_append]
      rw [foldl_upsertSeg_entry k0 (hval (k0, vs) (List.mem_cons_self _ _)).1 vs
        (fun v hv => (hval (k0, vs) (List.mem_cons_self _ _)).2 v hv) m]
      simp only [List.map_cons, List.nodup_cons] at hnd
      rw [ih hnd.2 (fun e' he' => hval e' (List.mem_cons_of_mem _ he')) _ k']
      by_cases h0 : k' = k0
      · have hnr : k' ∉ rest.map Prod.fst := by
          rw [h0]
          exact hnd.1
        rw [lookupVals_foldl_appendVal k0 vs m k']
        simp [hnr, h0, List.mem_cons, lookupVals]
        intro x hx
        exact lookupVals_eq_nil_of_not_mem rest k0 hnd.1
      · rw [lookupVals_foldl_appendVal k0 vs m k']
        by_cases hr : k' ∈ rest.map Prod.fst
        · simp [hr, h0, List.mem_cons, lookupVals, Ne.symm h0]
        · simp [hr, h0, List.mem_cons, lookupVals]

def lookupPair : List (GoStr × GoStr) → GoStr → Option GoStr
  | [], _ => none
  | (k, v) :: rest, key => if k = key then some v else lookupPair rest key

theorem lookupPair_eq_none (ps : List (GoStr × GoStr)) (k : GoStr) :
    k ∉ ps.map Prod.fst → lookupPair ps k = none := by
  induction ps with
  | nil => intro _; rfl
  | cons p rest ih =>
      intro h
      rcases p with ⟨k0, v0⟩
      have h0 : ¬ k0 = k := by
        intro e
        exact h (by simp [e])
      simp only [lookupPair, h0, if_false, reduceIte]
      exact ih (fun hm => h (List.mem_cons_of_mem _ hm))

theorem lookupVals_foldl_setParam (ps : List (GoStr × GoStr)) :
    (ps.map Prod.fst).Nodup →
    ∀ (m : Values) (k : GoStr),
      lookupVals (ps.foldl (fun m' kv => setParam m' kv.1 kv.2) m) k
        = match lookupPair ps k with
          | some v => [v]
          | none => lookupVals m k := by
  induction ps with
  | nil => intro _ m k; rfl
  | cons p rest ih =>
      intro hnd m k
      rcases p with ⟨k0, v0⟩
      simp only [List.map_cons, List.nodup_cons] at hnd
      simp only [List.foldl_cons]
      rw [ih hnd.2]
      by_cases h0 : k0 = k
      · subst h0
        rw [lookupPair_eq_none rest k0 hnd.1]
        simp [lookupPair, lookupVals_setParam]
      · simp only [lookupPair, h0, if_false, reduceIte]
        cases hlp : lookupPair rest k
        · simp [lookupVals_setParam, Ne.symm h0]
        · simp

theorem foldl_setParam_nodup (ps : List (GoStr × GoStr)) :
    ∀ m : Values, (m.map Prod.fst).Nodup →
      ((ps.foldl (fun m' kv => setParam m' kv.1 kv.2) m).map Prod.fst).Nodup := by
  induction ps with
  | nil => intro m h; exact h
  | cons p rest ih =>
      intro m h
      exact ih _ (nodup_keys_setParam m p.1 p.2 h)

theorem foldl_setParam_valid (ps : List (GoStr × GoStr)) :
    (∀ p ∈ ps, validStr p.1 ∧ validStr p.2) →
    ∀ m : Values, validValsP m →
      validValsP (ps.foldl (fun m' kv => setParam m' kv.1 kv.2) m) := by
  induction ps with
  | nil => intro _ m h; exact h
  | cons p rest ih =>
      intro hp m h
      exact ih (fun p' hp' => hp p' (List.mem_cons_of_mem _ hp')) _
        (validValsP_setParam p.1 p.2 (hp p (by simp)).1 (hp p (by simp)).2 m h)

theorem foldl_setParam_nonempty (ps : List (GoStr × GoStr)) :
    ∀ m : Values, valsNonempty m →
      valsNonempty (ps.foldl (fun m' kv => setParam m' kv.1 kv.2) m) := by
  induction ps with
  | nil => intro m h; exact h
  | cons p rest ih =>
      intro m h
      exact ih _ (valsNonempty_setParam p.1 p.2 m h)

theorem setParam_ne_nil (m : Values) (k v : GoStr) : setParam m k v ≠ [] := by
  rcases m with _ | ⟨e, rest⟩
  · simp [setParam]
  · rcases e with ⟨k0, vs⟩
    by_cases h : k0 = k <;> simp [setParam, h]

theorem foldl_setParam_ne_nil (ps : List (GoStr × GoStr)) :
    ps ≠ [] → ∀ m : Values,
      ps.foldl (fun m' kv => setParam m' kv.1 kv.2) m ≠ [] := by
  induction ps with
  | nil => intro h; exact absurd rfl h
  | cons p rest ih =>
      intro _ m
      by_cases hrest : rest = []
      · subst hrest
        simp only [List.foldl_cons, List.foldl_nil]
        exact setParam_ne_nil m p.1 p.2
      · simp only [List.foldl_cons]
        exact ih hrest _

theorem mem_emitted_of (es : Values) (e : GoStr × List GoStr) (v : GoStr) :
    e ∈ es → v ∈ e.2 →
    (queryEscape e.1 ++ 61 :: queryEscape v) ∈
      es.foldr
        (fun e' acc => (e'.2.map (fun w => queryEscape e'.1 ++ 61 :: queryEscape w)) ++ acc)
        [] := by
  induction es with
  | nil => intro he; simp at he
  | cons f rest ih =>
      intro he hv
      simp only [List.foldr_cons]
      rcases List.mem_cons.1 he with he | he
      · subst he
        exact List.mem_append.2 (Or.inl (List.mem_map.2 ⟨v, hv, rfl⟩))
      · exact List.mem_append.2 (Or.inr (ih he hv))

theorem joinAmp_ne_nil_of_mem (segs : List GoStr) (g : GoStr) :
    g ∈ segs → g ≠ [] → joinAmp segs ≠ [] := by
  induction segs with
  | nil => intro hg; simp at hg
  | cons s rest ih =>
      intro hg hne
      rcases rest with _ | ⟨s2, r2⟩
      · simp at hg
        subst hg
        simpa [joinAmp] using hne
      · have : joinAmp (s :: s2 :: r2) = s ++ 38 :: joinAmp (s2 :: r2) := rfl
        rw [this]
        simp

theorem encodeValues_ne_nil (q : Values) (hq : q ≠ []) (hne : valsNonempty q) :
    encodeValues q ≠ [] := by
  rcases List.exists_mem_of_ne_nil q hq with ⟨e, he⟩
  have hes : e ∈ sortVals q := (sortVals_perm q).mem_iff.2 he
  have hv2 : e.2 ≠ [] := hne e he
  rcases List.exists_mem_of_ne_nil e.2 hv2 with ⟨v, hv⟩
  have hseg := mem_emitted_of (sortVals q) e v hes hv
  exact joinAmp_ne_nil_of_mem _ _ hseg (by simp)

theorem encodeValues_no35 (q : Values) (hval : validValsP q) :
    35 ∉ encodeValues q := by
  intro hmem
  rcases mem_joinAmp _ _ hmem with h38 | ⟨g, hg, hxg⟩
  · exact absurd h38 (by decide)
  · rcases mem_emitted_segs _ g hg with ⟨e, he, v, hv, hgv⟩
    have he' : e ∈ q := (sortVals_perm q).mem_iff.1 he
    rcases hval e he' with ⟨hk, hvs⟩
    subst hgv
    rcases List.mem_append.1 hxg with hm | hm
    · exact (queryEscape_mem_ne e.1 hk 35 hm).2.2.2.1 rfl
    · rcases List.mem_cons.1 hm with hm | hm
      · exact absurd hm (by decide)
      · exact (queryEscape_mem_ne v (hvs v hv) 35 hm).2.2.2.1 rfl

theorem cutByte_fst_not_mem (sep : Nat) (s : GoStr) : sep ∉ (cutByte sep s).1 := by
  induction s with
  | nil => simp [cutByte]
  | cons b rest ih =>
      by_cases hb : b = sep
      · simp [cutByte, hb]
      · simp [cutByte, hb]
        exact ⟨fun e => hb e.symm, ih⟩

theorem rawQueryOf_rebuilt (base enc : GoStr) (frag : Option GoStr)
    (h63 : 63 ∉ base) (h35 : 35 ∉ base) (henc35 : 35 ∉ enc) :
    rawQueryOf (base ++ (63 :: enc) ++ (match frag with | some f => 35 :: f | none => []))
      = enc := by
  have hno35 : 35 ∉ base ++ 63 :: enc := by
    intro hm
    rcases List.mem_append.1 hm with hm | hm
    · exact h35 hm
    · rcases List.mem_cons.1 hm with e | hm
      · exact absurd e (by decide)
      · exact henc35 hm
  rcases frag with _ | f
  · unfold rawQueryOf
    rw [List.append_nil, cutByte_not_mem 35 _ hno35]
    rw [cutByte_append 63 _ _ h63]
  · unfold rawQueryOf
    rw [cutByte_append 35 _ _ hno35]
    rw [cutByte_append 63 _ _ h63]

theorem rawQueryOf_rebuilt_noquery (base : GoStr) (frag : Option GoStr)
    (h63 : 63 ∉ base) (h35 : 35 ∉ base) :
    rawQueryOf (base ++ [] ++ (match frag with | some f => 35 :: f | none => []))
      = [] := by
  rcases frag with _ | f
  · unfold rawQueryOf
    rw [List.append_nil, List.append_nil, cutByte_not_mem 35 _ h35,
      cutByte_not_mem 63 _ h63]
  · unfold rawQueryOf
    rw [List.append_nil, cutByte_append 35 _ _ h35, cutByte_not_mem 63 _ h63]

theorem parseQuery_encodeValues (q : Values)
    (hnd : (q.map Prod.fst).Nodup) (hval : validValsP q) :
    ∀ k, lookupVals (parseQuery (encodeValues q)) k = lookupVals q k := by
  intro k
  have hperm : (sortVals q).Perm q := sortVals_perm q
  have hndes : ((sortVals q).map Prod.fst).Nodup := ((hperm.map Prod.fst).nodup_iff).2 hnd
  have hvales : validValsP (sortVals q) := fun e he => hval e (hperm.mem_iff.1 he)
  have hsegprops : ∀ g ∈ (sortVals q).foldr
      (fun e acc => (e.2.map (fun v => queryEscape e.1 ++ 61 :: queryEscape v)) ++ acc) [],
      g ≠ [] ∧ 38 ∉ g := by
    intro g hg
    rcases mem_emitted_segs (sortVals q) g hg with ⟨e, he, v, hv, hgv⟩
    rcases hvales e he with ⟨hk, hvs⟩
    rcases emitted_seg_props e.1 v hk (hvs v hv) with ⟨hne, h38, _⟩
    exact hgv ▸ ⟨hne, h38⟩
  have hparse : parseQuery (encodeValues q)
      = ((sortVals q).foldr
          (fun e acc => (e.2.map (fun v => queryEscape e.1 ++ 61 :: queryEscape v)) ++ acc)
          []).foldl upsertSeg [] := by
    unfold parseQuery encodeValues
    rw [segmentsOf_joinAmp _ hsegprops _ (le_refl _)]
  rw [hparse, parse_emitted (sortVals q) hndes hvales [] k]
  by_cases hm : k ∈ (sortVals q).map Prod.fst
  · simp only [hm, if_true, reduceIte]
    have h1 : lookupVals ([] : Values) k = [] := rfl
    rw [h1, List.nil_append]
    exact lookupVals_perm (sortVals q) q hperm hndes k
  · simp only [hm, if_false, reduceIte]
    have hq : k ∉ q.map Prod.fst := fun hk => hm (((hperm.map Prod.fst).mem_iff).2 hk)
    rw [lookupVals_eq_nil_of_not_mem q k hq]
    rfl

theorem addParamsToURL_eq (params : List (GoStr × GoStr)) (url : GoStr) :
    addParamsToURL params url
      = (cutByte 63 (cutByte 35 url).1).1
        ++ (if encodeValues
              (params.foldl (fun m kv => setParam m kv.1 kv.2) (parseQuery (rawQueryOf url)))
              = [] then []
            else 63 :: encodeValues
              (params.foldl (fun m kv => setParam m kv.1 kv.2) (parseQuery (rawQueryOf url))))
        ++ (match (cutByte 35 url).2 with | some f => 35 :: f | none => []) := rfl

/-- C8: merging query parameters into a URL preserves every key/value pair
already present in the URL's query string and overwrites only the keys being
set: for well-formed byte strings and a parameter list with distinct keys,
looking up any key in the query of `addParamsToURL params url` yields the
parameter value when the key is set, and the key's original values otherwise. -/
theorem addParamsToURL_merge (params : List (GoStr × GoStr)) (url : GoStr)
    (hvu : validStr url)
    (hvp : ∀ p ∈ params, validStr p.1 ∧ validStr p.2)
    (hnd : (params.map Prod.fst).Nodup) :
    ∀ k, lookupVals (parseQuery (rawQueryOf (addParamsToURL params url))) k
      = match lookupPair params k with
        | some v => [v]
        | none => lookupVals (parseQuery (rawQueryOf url)) k := by
  intro k
  have hrawv : validStr (rawQueryOf url) := by
    intro b hb
    unfold rawQueryOf at hb
    rcases e2 : (cutByte 63 (cutByte 35 url).1).2 with _ | qq
    · rw [e2] at hb; simp at hb
    · rw [e2] at hb
      exact hvu b (mem_cutByte_fst 35 url b (mem_cutByte_snd 63 _ qq e2 b hb))
  have hbase63 : 63 ∉ (cutByte 63 (cutByte 35 url).1).1 := cutByte_fst_not_mem 63 _
  have hbase35 : 35 ∉ (cutByte 63 (cutByte 35 url).1).1 := by
    intro hm
    exact cutByte_fst_not_mem 35 url (mem_cutByte_fst 63 _ 35 hm)
  have hqnd := foldl_setParam_nodup params (parseQuery (rawQueryOf url)) (parseQuery_nodup _)
  have hqval := foldl_setParam_valid params hvp (parseQuery (rawQueryOf url))
    (parseQuery_valid _ hrawv)
  have hqne := foldl_setParam_nonempty params (parseQuery (rawQueryOf url))
    (parseQuery_nonempty _)
  rw [addParamsToURL_eq]
  by_cases hq0 :
      params.foldl (fun m kv => setParam m kv.1 kv.2) (parseQuery (rawQueryOf url)) = []
  · have hp : params = [] := by
      by_contra hp
      exact foldl_setParam_ne_nil params hp _ hq0
    subst hp
    simp only [List.foldl_nil] at hq0
    simp only [List.foldl_nil]
    rw [hq0]
    rw [if_pos (show encodeValues ([] : Values) = [] from rfl)]
    rw [rawQueryOf_rebuilt_noquery _ _ hbase63 hbase35]
    rfl
  · have hence := encodeValues_ne_nil _ hq0 hqne
    rw [if_neg hence]
    have henc35 := encodeValues_no35 _ hqval
    rw [rawQueryOf_rebuilt _ _ _ hbase63 hbase35 henc35]
    rw [parseQuery_encodeValues _ hqnd hqval k]
    rw [lookupVals_foldl_setParam params hnd _ k]

set_option maxRecDepth 40000 in
/-- Witness for C8: merging `a=x` into `h?b=1&a=0` keeps `b` at `1` and
overwrites `a` to `x`. -/
theorem addParamsToURL_merge_witness :
    lookupVals (parseQuery (rawQueryOf
        (addParamsToURL [([97], [120])] [104, 63, 98, 61, 49, 38, 97, 61, 48]))) [98]
      = [[49]]
    ∧ lookupVals (parseQuery (rawQueryOf
        (addParamsToURL [([97], [120])] [104, 63, 98, 61, 49, 38, 97, 61, 48]))) [97]
      = [[120]] := by
  constructor
  · have h := addParamsToURL_merge [([97], [120])] [104, 63, 98, 61, 49, 38, 97, 61, 48]
      (by simp only [validStr]; decide) (by simp only [validStr]; decide) (by decide) [98]
    rw [h]
    decide
  · have h := addParamsToURL_merge [([97], [120])] [104, 63, 98, 61, 49, 38, 97, 61, 48]
      (by simp only [validStr]; decide) (by simp only [validStr]; decide) (by decide) [97]
    rw [h]
    decide
